import Mathlib

/-!
# EventEmitter — a shallow embedding of the emitter in `mod.ts`

This file formalises the `EventEmitter` class of the repository (the
registration / dispatch engine) and proves properties of it.

Modelling decisions, all taken directly from the source and from the
ECMAScript semantics of the structures the source uses:

* `EventName` is a `String`.  (The source admits `string | symbol`; symbols
  are ordinary opaque keys and none of the verified properties depends on
  them, while the JavaScript *falsiness* of the empty string is load-bearing
  in `removeAllListeners` and `listenerCount` and is modelled by
  `nameFalsy`.)
* Listener functions are opaque, identity-compared values: we model them as
  `Nat` identifiers.  The behaviour of a listener when invoked is given by a
  fixed environment `β : ListenerId → List Action`, where an `Action` is a
  re-entrant call back into the same emitter (`addEventListener`,
  `removeEventListener`, `emit`) or a `throw`.  This is the standard way to
  close the system over the opaque callbacks: re-entrancy is expressible,
  which the spec explicitly demands to be safe.
* `Map` objects (`_listeners`, `_listenerMeta`) are insertion-ordered
  association lists: `set` of a present key updates in place, `set` of a
  fresh key appends, `delete` removes the entry.  Neither map is ever
  iterated concurrently with a mutation in the source (`eventNames`
  completes before returning, `removeAllListeners` snapshots with
  `Array.from` first), so association lists are observationally faithful.
* `Set` objects (the per-event listener sets) **are** iterated live by
  `emit`'s `for…of` loop while re-entrant listeners may mutate them.  Per
  ECMA-262, `Set.prototype.delete` replaces the entry in `[[SetData]]` with
  EMPTY (a hole) and `add` appends a fresh entry; the iterator walks an
  index over `[[SetData]]`, skipping holes, and sees entries appended during
  iteration.  We therefore model a listener set as
  `List (Option ListenerId)` (`none` = hole) and `emit`'s loop as a cursor
  over that list, re-read from the state at every step.  Under the action
  language above the map entry for an event is never replaced by a new set
  object while a loop holds it (only `removeAllListeners` deletes map
  entries, and it is not among the re-entrant actions), so re-reading the
  map is identical to holding the JavaScript object reference.
* All recursion in the source (nested `emit`s, re-entrant calls, the
  `for…of` loop over a growable list, and the mutual recursion of
  `listenerCount` / `removeAllListeners` with themselves on falsy names) is
  bounded by an explicit `fuel`; the interpreter is structurally recursive
  on `fuel` so that concrete runs evaluate by `decide`.  `Outcome.fuelOut`
  marks exhaustion and is never converted into a normal result, so
  "`out ≠ .fuelOut`" hypotheses give partial-correctness statements that
  are independent of the particular fuel.
* Invoked listeners and `emit` entries are recorded in a trace so that
  statements about *which* listeners an `emit` call invokes, in which
  order, and which `"newListener"` / `"removeListener"` notifications fire,
  are expressible.
-/

namespace EventEmitterSpec

abbrev EventName := String
abbrev ListenerId := Nat

/-- Thrown error values of the program: the two dedicated error classes of
the source, the generic negative-`maxListeners` error, and opaque errors
thrown by user listeners. -/
inductive Err where
  | unhandledError : Err
  | tooManyListeners : Err
  | negativeMax : Err
  | userErr : Nat → Err
deriving DecidableEq, Repr

/-- `EventListenerOptions` of the source: `{ once?: boolean }`. -/
structure ListenerOptions where
  once : Option Bool
deriving DecidableEq, Repr

/-- `EventListenerMeta` of the source: `{ options?: EventListenerOptions }`. -/
structure EventListenerMeta where
  options : Option ListenerOptions
deriving DecidableEq, Repr

/-- Runtime values that can be thrown or passed as `emit` arguments.
`instanceof Error` is `isError`. -/
inductive Value where
  | vErr : Err → Value
  | vStr : String → Value
  | vNat : Nat → Value
  | vBool : Bool → Value
  | vOpt : Option ListenerOptions → Value
  | vSelf : Value
  | vUnit : Value
deriving DecidableEq, Repr

/-- `x instanceof Error` for our value universe. -/
def isError : Value → Bool
  | .vErr _ => true
  | _ => false

/-- One step of a listener body: a re-entrant call into the emitter, or a
`throw`. -/
inductive Action where
  | addA : EventName → ListenerId → Option ListenerOptions → Action
  | removeA : EventName → ListenerId → Action
  | emitA : EventName → List Value → Action
  | throwA : Value → Action
deriving DecidableEq, Repr

/-! ## JavaScript `Map` on association lists -/

/-- `Map.prototype.get`. -/
def mapGet {β : Type} (m : List (EventName × β)) (k : EventName) : Option β :=
  match m with
  | [] => none
  | (k2, v) :: r => if k2 = k then some v else mapGet r k

/-- `Map.prototype.has`. -/
def mapHas {β : Type} (m : List (EventName × β)) (k : EventName) : Bool :=
  (mapGet m k).isSome

/-- `Map.prototype.set`: update in place if the key is present (keeping
insertion order), else append.  (JavaScript `Map` keys are unique; on the
unique-key lists the emitter builds, updating the first occurrence is the
map semantics.) -/
def mapSet {β : Type} (m : List (EventName × β)) (k : EventName) (v : β) :
    List (EventName × β) :=
  match m with
  | [] => [(k, v)]
  | (k2, v2) :: r => if k2 = k then (k, v) :: r else (k2, v2) :: mapSet r k v

/-- `Map.prototype.delete` (ignoring the returned boolean, which the source
never uses on these maps): removes the entry for `k`. -/
def mapDelete {β : Type} (m : List (EventName × β)) (k : EventName) :
    List (EventName × β) :=
  match m with
  | [] => []
  | (k2, v) :: r => if k2 = k then r else (k2, v) :: mapDelete r k

/-- `Map.prototype.keys`, in insertion order. -/
def mapKeys {β : Type} (m : List (EventName × β)) : List EventName :=
  m.map (·.1)

/-! ## JavaScript `Map` keyed by listener functions (the inner meta maps) -/

/-- `get` on a listener-keyed map. -/
def lmapGet {β : Type} (m : List (ListenerId × β)) (k : ListenerId) : Option β :=
  match m with
  | [] => none
  | (k2, v) :: r => if k2 = k then some v else lmapGet r k

/-- `has` on a listener-keyed map. -/
def lmapHas {β : Type} (m : List (ListenerId × β)) (k : ListenerId) : Bool :=
  (lmapGet m k).isSome

/-- `set` on a listener-keyed map. -/
def lmapSet {β : Type} (m : List (ListenerId × β)) (k : ListenerId) (v : β) :
    List (ListenerId × β) :=
  match m with
  | [] => [(k, v)]
  | (k2, v2) :: r => if k2 = k then (k, v) :: r else (k2, v2) :: lmapSet r k v

/-- `delete` on a listener-keyed map: removes the entry for `k`. -/
def lmapDelete {β : Type} (m : List (ListenerId × β)) (k : ListenerId) :
    List (ListenerId × β) :=
  match m with
  | [] => []
  | (k2, v) :: r => if k2 = k then r else (k2, v) :: lmapDelete r k

/-! ## JavaScript `Set` as ECMA-262 `[[SetData]]`: entries with holes -/

/-- The `[[SetData]]` list of a `Set`: `none` is an EMPTY slot left by
`delete`. -/
abbrev SetData := List (Option ListenerId)

/-- `Set.prototype.has`. -/
def sdHas (sd : SetData) (f : ListenerId) : Bool :=
  sd.contains (some f)

/-- `Set.prototype.add`: appends a fresh entry when absent (holes are not
reused, per ECMA-262). -/
def sdAdd (sd : SetData) (f : ListenerId) : SetData :=
  if sdHas sd f then sd else sd ++ [some f]

/-- `Set.prototype.delete`: replace the entry with EMPTY. -/
def sdDelete (sd : SetData) (f : ListenerId) : SetData :=
  sd.map (fun o => if o = some f then none else o)

/-- The elements of the set, in insertion order (what `Array.from` and a
completed iteration observe). -/
def sdElems (sd : SetData) : List ListenerId :=
  sd.filterMap id

/-- `Set.prototype.size`. -/
def sdSize (sd : SetData) : Nat :=
  (sdElems sd).length

/-! ## The emitter state -/

/-- The private state of an `EventEmitter`: `_maxListeners`, `_listeners`
and `_listenerMeta`. -/
structure EventEmitter where
  maxListeners : Nat
  listeners : List (EventName × SetData)
  listenerMeta : List (EventName × List (ListenerId × EventListenerMeta))
deriving DecidableEq, Repr

/-- A fresh emitter: `DEFAULT_MAX_LISTENERS = 10`, empty maps. -/
def emptyEmitter : EventEmitter := ⟨10, [], []⟩

/-- The listener `[[SetData]]` currently stored for an event (empty when the
event has no entry). -/
def sdOf (s : EventEmitter) (e : EventName) : SetData :=
  (mapGet s.listeners e).getD []

/-- The listeners currently registered for an event, in registration order. -/
def elemsOf (s : EventEmitter) (e : EventName) : List ListenerId :=
  sdElems (sdOf s e)

/-- `_listenerMeta.get(e)?.get(f)?.options?.once` is truthy. -/
def onceFlag (s : EventEmitter) (e : EventName) (f : ListenerId) : Bool :=
  match mapGet s.listenerMeta e with
  | none => false
  | some mm =>
    match lmapGet mm f with
    | none => false
    | some m =>
      match m.options with
      | none => false
      | some o => o.once = some true

/-- JavaScript falsiness of the optional `eventName` parameter: `undefined`
and the empty string are falsy, every other string is truthy. -/
def nameFalsy : Option EventName → Bool
  | none => true
  | some e => e = ""

/-! ## Observable trace -/

/-- Trace events: an `emit(eventName, …args)` call was entered, or a
listener was invoked (with the `emit` arguments; the source prepends the
event name to them before `apply`). -/
inductive TraceEv where
  | emitCall : EventName → List Value → TraceEv
  | invoke : EventName → ListenerId → List Value → TraceEv
deriving DecidableEq, Repr

/-- Number of invocations of listener `f` for event `e` in a trace. -/
def countInvoke (tr : List TraceEv) (e : EventName) (f : ListenerId) : Nat :=
  (tr.filter (fun t =>
    match t with
    | .invoke e2 f2 _ => e2 = e ∧ f2 = f
    | _ => false)).length

/-! ## The interpreter -/

/-- Result of an operation: a normal JavaScript return value, a thrown
value, or fuel exhaustion (a model artefact for unbounded recursion). -/
inductive Outcome where
  | ok : Value → Outcome
  | thrown : Value → Outcome
  | fuelOut : Outcome
deriving DecidableEq, Repr

/-- The operations of the emitter, including the internal loops
(`emitLoopR` is `emit`'s `for…of` cursor, `removeAllKeys` the
reverse-order event loop of `removeAllListeners()`, `rmNotify` its
per-listener notification loop, `script` a listener body). -/
inductive Req where
  | add : EventName → ListenerId → Option ListenerOptions → Req
  | remove : EventName → ListenerId → Req
  | removeAll : Option EventName → Req
  | removeAllKeys : List EventName → Req
  | rmNotify : EventName → List ListenerId → Req
  | emitR : EventName → List Value → Req
  | emitLoopR : EventName → List Value → Nat → Req
  | script : List Action → Req
deriving DecidableEq, Repr

/-- One layer of the interpreter: the body of every method of the source
class, with `recur` standing for the recursive calls at the remaining
fuel.  Keeping the body non-recursive makes single-layer unfolding
(`exec_succ`) available in proofs. -/
def execBody (β : ListenerId → List Action)
    (recur : Req → EventEmitter → Outcome × EventEmitter × List TraceEv)
    (req : Req) (s : EventEmitter) : Outcome × EventEmitter × List TraceEv :=
  match req with
    | .add e f opts =>
      -- addEventListener: get-or-create the listener set
      let s1 := if mapHas s.listeners e then s
                else { s with listeners := mapSet s.listeners e [] }
      let sd := sdOf s1 e
      if sdHas sd f then (.ok .vSelf, s1, [])
      else if s1.maxListeners ≤ sdSize sd then
        (.thrown (.vErr .tooManyListeners), s1, [])
      else
        let s2 := { s1 with listeners := mapSet s1.listeners e (sdAdd sd f) }
        let s3 :=
          match mapGet s2.listenerMeta e with
          | some mm =>
            if lmapHas mm f then s2
            else { s2 with listenerMeta :=
                     mapSet s2.listenerMeta e (lmapSet mm f ⟨opts⟩) }
          | none =>
            { s2 with listenerMeta :=
                mapSet s2.listenerMeta e (lmapSet [] f ⟨opts⟩) }
        let r := recur (.emitR "newListener" [.vStr e, .vNat f, .vOpt opts]) s3
        match r.1 with
        | .ok _ => (.ok .vSelf, r.2.1, r.2.2)
        | o => (o, r.2.1, r.2.2)
    | .remove e f =>
      -- removeEventListener
      match mapGet s.listeners e with
      | none => (.ok (.vBool false), s, [])
      | some sd =>
        if ¬ sdHas sd f then (.ok (.vBool false), s, [])
        else
          let r := recur (.emitR "removeListener" [.vStr e, .vNat f]) s
          match r.1 with
          | .ok _ =>
            let s1 := r.2.1
            let s2 :=
              match mapGet s1.listeners e with
              | some sd1 => { s1 with listeners := mapSet s1.listeners e (sdDelete sd1 f) }
              | none => s1
            let s3 :=
              match mapGet s2.listenerMeta e with
              | some mm => { s2 with listenerMeta := mapSet s2.listenerMeta e (lmapDelete mm f) }
              | none => s2
            (.ok (.vBool true), s3, r.2.2)
          | o => (o, r.2.1, r.2.2)
    | .removeAll e? =>
      -- removeAllListeners; `if (!eventName)` is JavaScript falsiness
      if nameFalsy e? then
        let revKeys := (mapKeys s.listeners).reverse
        let r := recur (.removeAllKeys revKeys) s
        match r.1 with
        | .ok _ => (.ok (.vBool (decide (0 < revKeys.length))), r.2.1, r.2.2)
        | o => (o, r.2.1, r.2.2)
      else
        match e? with
        | none => (.ok (.vBool false), s, [])   -- unreachable: none is falsy
        | some e =>
          match mapGet s.listeners e with
          | none => (.ok (.vBool false), s, [])
          | some sd =>
            let s1 := { s with listeners := mapDelete s.listeners e,
                               listenerMeta := mapDelete s.listenerMeta e }
            let r := recur (.rmNotify e (sdElems sd).reverse) s1
            match r.1 with
            | .ok _ => (.ok (.vBool true), r.2.1, r.2.2)
            | o => (o, r.2.1, r.2.2)
    | .removeAllKeys keys =>
      match keys with
      | [] => (.ok .vUnit, s, [])
      | k :: rest =>
        let r := recur (.removeAll (some k)) s
        match r.1 with
        | .ok _ =>
          let r2 := recur (.removeAllKeys rest) r.2.1
          (r2.1, r2.2.1, r.2.2 ++ r2.2.2)
        | o => (o, r.2.1, r.2.2)
    | .rmNotify e ls =>
      match ls with
      | [] => (.ok .vUnit, s, [])
      | f :: rest =>
        let r := recur (.emitR "removeListener" [.vStr e, .vNat f]) s
        match r.1 with
        | .ok _ =>
          let r2 := recur (.rmNotify e rest) r.2.1
          (r2.1, r2.2.1, r.2.2 ++ r2.2.2)
        | o => (o, r.2.1, r.2.2)
    | .emitR e args =>
      if ¬ mapHas s.listeners e then
        if e = "error" then
          match args.head? with
          | some v =>
            if isError v then (.thrown v, s, [.emitCall e args])
            else (.thrown (.vErr .unhandledError), s, [.emitCall e args])
          | none => (.thrown (.vErr .unhandledError), s, [.emitCall e args])
        else (.ok (.vBool false), s, [.emitCall e args])
      else
        let n0 := sdSize (sdOf s e)
        let r := recur (.emitLoopR e args 0) s
        match r.1 with
        | .ok _ => (.ok (.vBool (decide (0 < n0))), r.2.1, .emitCall e args :: r.2.2)
        | o => (o, r.2.1, .emitCall e args :: r.2.2)
    | .emitLoopR e args c =>
      -- the for…of cursor over the live [[SetData]]
      let sd := sdOf s e
      match sd[c]? with
      | none => (.ok .vUnit, s, [])            -- cursor past the end: done
      | some none => recur (.emitLoopR e args (c + 1)) s   -- hole: skip
      | some (some f) =>
        let r1 := recur (.script (β f)) s
        match r1.1 with
        | .fuelOut => (.fuelOut, r1.2.1, .invoke e f args :: r1.2.2)
        | _ =>
          -- catch: a thrown value is redirected into emit("error", err)
          let rc :=
            match r1.1 with
            | .thrown v =>
              let r2 := recur (.emitR "error" [v]) r1.2.1
              (r2.1, r2.2.1, r2.2.2)
            | _ => (Outcome.ok Value.vUnit, r1.2.1, ([] : List TraceEv))
          match rc.1 with
          | .fuelOut => (.fuelOut, rc.2.1, .invoke e f args :: r1.2.2 ++ rc.2.2)
          | _ =>
            -- finally: once-removal runs also on the throwing paths
            let s2 := rc.2.1
            let rf :=
              if onceFlag s2 e f then recur (.remove e f) s2
              else (Outcome.ok Value.vUnit, s2, ([] : List TraceEv))
            let trHere := TraceEv.invoke e f args :: r1.2.2 ++ rc.2.2 ++ rf.2.2
            match rf.1 with
            | .thrown v => (.thrown v, rf.2.1, trHere)   -- finally threw: replaces
            | .fuelOut => (.fuelOut, rf.2.1, trHere)
            | .ok _ =>
              match rc.1 with
              | .thrown v => (.thrown v, rf.2.1, trHere) -- propagate after finally
              | .fuelOut => (.fuelOut, rf.2.1, trHere)
              | .ok _ =>
                let r4 := recur (.emitLoopR e args (c + 1)) rf.2.1
                (r4.1, r4.2.1, trHere ++ r4.2.2)
    | .script acts =>
      match acts with
      | [] => (.ok .vUnit, s, [])
      | a :: rest =>
        let r :=
          match a with
          | .addA e f o => recur (.add e f o) s
          | .removeA e f => recur (.remove e f) s
          | .emitA e vs => recur (.emitR e vs) s
          | .throwA v => (Outcome.thrown v, s, ([] : List TraceEv))
        match r.1 with
        | .ok _ =>
          let r2 := recur (.script rest) r.2.1
          (r2.1, r2.2.1, r.2.2 ++ r2.2.2)
        | o => (o, r.2.1, r.2.2)


/-- The interpreter.  Each case of `execBody` transcribes the
corresponding method of the source class; every recursive call runs at the
predecessor fuel, so the definition is structural and concrete runs
compute by `decide`. -/
def exec (β : ListenerId → List Action) :
    Nat → Req → EventEmitter → Outcome × EventEmitter × List TraceEv
  | 0, _, s => (.fuelOut, s, [])
  | fuel + 1, req, s => execBody β (exec β fuel) req s

/-! ## The remaining public methods (non-mutating) -/

/-- `eventNames()`: the keys of `_listeners`, in insertion order. -/
def eventNames (s : EventEmitter) : List EventName :=
  mapKeys s.listeners

/-- `listeners(eventName)`: a snapshot copy of the listener set, in
registration order. -/
def listenersOf (s : EventEmitter) (e : EventName) : List ListenerId :=
  elemsOf s e

/-- The two shapes of a `listenerCount` activation: a direct call, or the
summation loop over `eventNames()` (each iteration of which is a fresh
recursive call in the source). -/
inductive LCReq where
  | one : Option EventName → Option ListenerId → LCReq
  | sum : List EventName → LCReq

/-- `listenerCount(eventName?, listener?)`.  `if (!eventName)` is
falsiness, so the empty string takes the summation branch; with `""` among
the keys the source recurses without bound, modelled by fuel
(`none` = stack overflow). -/
def lcF : Nat → EventEmitter → LCReq → Option Nat
  | 0, _, _ => none
  | fuel + 1, s, .one e? f? =>
    if nameFalsy e? then lcF fuel s (.sum (eventNames s))
    else
      match e? with
      | none => some 0   -- unreachable: none is falsy
      | some e =>
        match mapGet s.listeners e with
        | none => some 0
        | some sd =>
          match f? with
          | some f => some (if sdHas sd f then 1 else 0)
          | none => some (sdSize sd)
  | fuel + 1, s, .sum keys =>
    match keys with
    | [] => some 0
    | k :: rest =>
      match lcF fuel s (.one (some k) none), lcF fuel s (.sum rest) with
      | some a, some b => some (a + b)
      | _, _ => none

/-- The `maxListeners` setter: rejects negative values. -/
def setMaxListeners (s : EventEmitter) (n : Int) : Outcome × EventEmitter :=
  if n < 0 then (.thrown (.vErr .negativeMax), s)
  else (.ok .vUnit, { s with maxListeners := n.toNat })

/-- The all-empty listener-behaviour environment: every listener is an
inert callback that performs no re-entrant calls and does not throw. -/
def betaEmpty : ListenerId → List Action := fun _ => []

/-- Total listener count across all events (the mathematical quantity
`listenerCount()` is specified to return). -/
def totalListeners (s : EventEmitter) : Nat :=
  (s.listeners.map (fun p => sdSize p.2)).sum

/-- The trace of `emit`'s loop over a listener-set suffix when every
listener body is inert: each present listener is invoked once in order,
followed by the `"removeListener"` dispatch of its once-removal when its
stored options are `once: true`. -/
def loopTrace (s : EventEmitter) (e : EventName) (args : List Value) :
    SetData → List TraceEv
  | [] => []
  | none :: r => loopTrace s e args r
  | some g :: r =>
    if onceFlag s e g then
      .invoke e g args :: .emitCall "removeListener" [.vStr e, .vNat g] ::
        loopTrace s e args r
    else
      .invoke e g args :: loopTrace s e args r

/-- The lockstep invariant that actually holds of the two maps: both maps
have well-formed (duplicate-free) keys, every event of `_listenerMeta` is
an event of `_listeners`, and for every event of `_listeners`, its set has
no duplicate listeners and the meta map (when present) holds exactly the
listener keys of the listener set, in the same order, while a missing
meta entry forces an empty listener set. -/
def invB (s : EventEmitter) : Bool :=
  (mapKeys s.listeners).Nodup &&
  (mapKeys s.listenerMeta).Nodup &&
  (mapKeys s.listenerMeta).all (fun k => mapHas s.listeners k) &&
  s.listeners.all (fun p =>
    (sdElems p.2).Nodup &&
    match mapGet s.listenerMeta p.1 with
    | some mm => decide (mm.map Prod.fst = sdElems p.2)
    | none => decide (sdElems p.2 = []))

/-! ## Concrete scenario states used by the counterexamples and witnesses -/

/-- A behaviour environment where listener 1 re-entrantly registers
listener 3 and unregisters listener 2 for event `"e"`. -/
def betaC1 : ListenerId → List Action :=
  fun i => if i = 1 then [.addA "e" 3 none, .removeA "e" 2] else []

/-- Listeners 1 and 2 registered for `"e"` (under `betaC1`). -/
def stateC1 : EventEmitter :=
  (exec betaC1 30 (.add "e" 2 none) ((exec betaC1 30 (.add "e" 1 none) emptyEmitter).2.1)).2.1

/-- An `"error"` listener registered and then unregistered: the `"error"`
key survives with an empty set. -/
def stateC2 : EventEmitter :=
  (exec betaEmpty 30 (.remove "error" 1) ((exec betaEmpty 30 (.add "error" 1 none) emptyEmitter).2.1)).2.1

/-- A listener for `"a"` registered and then unregistered. -/
def stateC3 : EventEmitter :=
  (exec betaEmpty 30 (.remove "a" 1) ((exec betaEmpty 30 (.add "a" 1 none) emptyEmitter).2.1)).2.1

/-- A fresh emitter whose `maxListeners` was set to 0 through the setter. -/
def stateMax0 : EventEmitter := (setMaxListeners emptyEmitter 0).2

/-- A behaviour environment where listener 7 re-entrantly registers
listener 8 for `"newListener"`. -/
def betaC5 : ListenerId → List Action :=
  fun i => if i = 7 then [.addA "newListener" 8 none] else []

/-- `maxListeners = 1` with listener 7 registered for `"newListener"`. -/
def stateC5 : EventEmitter :=
  ⟨1, [("newListener", [some 7])], [("newListener", [(7, ⟨none⟩)])]⟩

/-- Listener 1 registered `once: true` and listener 2 `once: false` for
`"hit"` (the shape of the repository's `emits events once` test). -/
def stateC7 : EventEmitter :=
  (exec betaEmpty 30 (.add "hit" 2 (some ⟨some false⟩))
    ((exec betaEmpty 30 (.add "hit" 1 (some ⟨some true⟩)) emptyEmitter).2.1)).2.1

/-- A listener registered under the empty-string event name. -/
def stateEmptyName : EventEmitter :=
  (exec betaEmpty 30 (.add "" 1 none) emptyEmitter).2.1

/-- Listener 1 registered for `"a"` on a fresh emitter. -/
def stateA : EventEmitter :=
  (exec betaEmpty 30 (.add "a" 1 none) emptyEmitter).2.1

/-- A behaviour environment where listener 1 throws an `Error` value and
every other listener is inert. -/
def betaC7t : ListenerId → List Action :=
  fun i => if i = 1 then [.throwA (.vErr (.userErr 7))] else []

/-- Listener 1 registered `once: true` and listener 2 plainly for
`"hit"`, and an (inert) `"error"` listener 3, under `betaC7t`. -/
def stateC7t : EventEmitter :=
  (exec betaC7t 30 (.add "error" 3 none)
    ((exec betaC7t 30 (.add "hit" 2 none)
      ((exec betaC7t 30 (.add "hit" 1 (some ⟨some true⟩)) emptyEmitter).2.1)).2.1)).2.1

/-- Listener 1 registered `once: true` and listener 2 plainly for
`"hit"`, with no `"error"` listener, under `betaC7t`. -/
def stateB7 : EventEmitter :=
  (exec betaC7t 30 (.add "hit" 2 none)
    ((exec betaC7t 30 (.add "hit" 1 (some ⟨some true⟩)) emptyEmitter).2.1)).2.1

/-- The state after `removeEventListener(e, f)` commits: the listener is
deleted from the event's set (leaving a hole) and from its meta map. -/
def removeCommit (s : EventEmitter) (e : EventName) (f : ListenerId) (sd : SetData) :
    EventEmitter :=
  { s with listeners := mapSet s.listeners e (sdDelete sd f),
           listenerMeta :=
             match mapGet s.listenerMeta e with
             | some mm => mapSet s.listenerMeta e (lmapDelete mm f)
             | none => s.listenerMeta }

/-- Delete an event from both maps (the two adjacent deletes of
`removeAllListeners(eventName)`). -/
def deleteBoth (t : EventEmitter) (k : EventName) : EventEmitter :=
  { t with listeners := mapDelete t.listeners k,
           listenerMeta := mapDelete t.listenerMeta k }

/-- The `"removeListener"` dispatches fired when event `k` is torn down:
one per listener, in reverse registration order. -/
def rmCallsOf (s : EventEmitter) (k : EventName) : List TraceEv :=
  ((elemsOf s k).reverse).map (fun f => .emitCall "removeListener" [.vStr k, .vNat f])

/-! ## Helper lemmas: association-list maps -/
/-- Propositional form of the lockstep invariant. -/
def invP (s : EventEmitter) : Prop :=
  (mapKeys s.listeners).Nodup ∧
  (mapKeys s.listenerMeta).Nodup ∧
  (∀ k ∈ mapKeys s.listenerMeta, mapHas s.listeners k = true) ∧
  ∀ p ∈ s.listeners, (sdElems p.2).Nodup ∧
    (∀ mm, mapGet s.listenerMeta p.1 = some mm → mm.map Prod.fst = sdElems p.2) ∧
    (mapGet s.listenerMeta p.1 = none → sdElems p.2 = [])

theorem mapHas_iff_mem {β : Type} (m : List (EventName × β)) (k : EventName) :
    mapHas m k = true ↔ k ∈ mapKeys m := by
  induction m with
  | nil => simp [mapHas, mapGet, mapKeys]
  | cons p r ih =>
    obtain ⟨k2, v⟩ := p
    by_cases hk : k2 = k
    · subst hk; simp [mapHas, mapGet, mapKeys]
    · simp only [mapHas, mapGet, hk, if_false, mapKeys, List.map_cons,
        List.mem_cons] at ih ⊢
      rw [ih]
      constructor
      · exact Or.inr
      · rintro (hc | hm)
        · exact absurd hc.symm hk
        · exact hm

theorem mapGet_eq_none_of_not_mem {β : Type} {m : List (EventName × β)}
    {k : EventName} (h : k ∉ mapKeys m) : mapGet m k = none := by
  have h2 := (mapHas_iff_mem m k).not.mpr h
  simp only [mapHas, Option.isSome] at h2
  revert h2
  match mapGet m k with
  | none => intro _; rfl
  | some v => intro h2; simp at h2

theorem mapGet_mapSet_self {β : Type} (m : List (EventName × β)) (k : EventName) (v : β) :
    mapGet (mapSet m k v) k = some v := by
  induction m with
  | nil => simp [mapSet, mapGet]
  | cons p r ih =>
    obtain ⟨k2, v2⟩ := p
    by_cases hk : k2 = k <;> simp [mapSet, mapGet, hk, ih]

theorem mapGet_mapSet_ne {β : Type} (m : List (EventName × β)) (k k2 : EventName) (v : β)
    (h : k2 ≠ k) : mapGet (mapSet m k v) k2 = mapGet m k2 := by
  have hkk : ¬ (k = k2) := fun hc => h hc.symm
  induction m with
  | nil =>
    simp only [mapSet, mapGet]
    rw [if_neg hkk]
  | cons p r ih =>
    obtain ⟨k3, v3⟩ := p
    by_cases hk : k3 = k
    · subst hk
      simp only [mapSet, if_pos rfl, mapGet]
      rw [if_neg hkk, if_neg hkk]
    · simp only [mapSet, if_neg hk, mapGet]
      by_cases hk2 : k3 = k2
      · rw [if_pos hk2, if_pos hk2]
      · rw [if_neg hk2, if_neg hk2]
        exact ih

theorem mapKeys_mapSet_of_has {β : Type} (m : List (EventName × β)) (k : EventName) (v : β)
    (h : mapHas m k = true) : mapKeys (mapSet m k v) = mapKeys m := by
  induction m with
  | nil => simp [mapHas, mapGet] at h
  | cons p r ih =>
    obtain ⟨k2, v2⟩ := p
    by_cases hk : k2 = k
    · subst hk; simp [mapSet, mapKeys]
    · simp only [mapHas, mapGet, hk, if_false] at h
      simp only [mapSet, if_neg hk, mapKeys, List.map_cons, List.cons.injEq]
      exact ⟨trivial, ih h⟩

theorem mapKeys_mapSet_of_not_has {β : Type} (m : List (EventName × β)) (k : EventName) (v : β)
    (h : mapHas m k = false) : mapKeys (mapSet m k v) = mapKeys m ++ [k] := by
  induction m with
  | nil => simp [mapSet, mapKeys]
  | cons p r ih =>
    obtain ⟨k2, v2⟩ := p
    by_cases hk : k2 = k
    · subst hk; simp [mapHas, mapGet] at h
    · simp only [mapHas, mapGet, hk, if_false] at h
      simp only [mapSet, if_neg hk, mapKeys, List.map_cons, List.cons_append,
        List.cons.injEq]
      exact ⟨trivial, ih h⟩

theorem mapKeys_mapDelete {β : Type} (m : List (EventName × β)) (k : EventName) :
    mapKeys (mapDelete m k) = (mapKeys m).erase k := by
  induction m with
  | nil => rfl
  | cons p r ih =>
    obtain ⟨k2, v2⟩ := p
    by_cases hk : k2 = k
    · subst hk
      simp [mapDelete, mapKeys, List.erase_cons_head]
    · simp only [mapDelete, if_neg hk, mapKeys, List.map_cons]
      rw [List.erase_cons_tail]
      · exact congrArg (k2 :: ·) ih
      · simp [hk]

theorem mapGet_mapDelete_ne {β : Type} (m : List (EventName × β)) (k k2 : EventName)
    (h : k2 ≠ k) : mapGet (mapDelete m k) k2 = mapGet m k2 := by
  induction m with
  | nil => rfl
  | cons p r ih =>
    obtain ⟨k3, v3⟩ := p
    by_cases hk : k3 = k
    · simp only [mapDelete, if_pos hk, mapGet]
      rw [if_neg (fun hc : k3 = k2 => h (hc.symm.trans hk))]
    · simp only [mapDelete, if_neg hk, mapGet]
      by_cases hk2 : k3 = k2
      · rw [if_pos hk2, if_pos hk2]
      · rw [if_neg hk2, if_neg hk2]
        exact ih

/-! ## Helper lemmas: listener-keyed maps -/

theorem lmapGet_lmapDelete_ne {β : Type} (m : List (ListenerId × β)) (k k2 : ListenerId)
    (h : k2 ≠ k) : lmapGet (lmapDelete m k) k2 = lmapGet m k2 := by
  induction m with
  | nil => rfl
  | cons p r ih =>
    obtain ⟨k3, v3⟩ := p
    by_cases hk : k3 = k
    · simp only [lmapDelete, if_pos hk, lmapGet]
      rw [if_neg (fun hc : k3 = k2 => h (hc.symm.trans hk))]
    · simp only [lmapDelete, if_neg hk, lmapGet]
      by_cases hk2 : k3 = k2
      · rw [if_pos hk2, if_pos hk2]
      · rw [if_neg hk2, if_neg hk2]
        exact ih

/-- `keys` of an inner map after `delete`. -/
theorem lmapKeys_lmapDelete {β : Type} (m : List (ListenerId × β)) (k : ListenerId) :
    (lmapDelete m k).map Prod.fst = (m.map Prod.fst).erase k := by
  induction m with
  | nil => rfl
  | cons p r ih =>
    obtain ⟨k2, v2⟩ := p
    by_cases hk : k2 = k
    · subst hk
      simp [lmapDelete, List.erase_cons_head]
    · simp only [lmapDelete, if_neg hk, List.map_cons]
      rw [List.erase_cons_tail]
      · exact congrArg (k2 :: ·) ih
      · simp [hk]

/-! ## Helper lemmas: listener sets -/

theorem mem_sdElems {sd : SetData} {f : ListenerId} :
    f ∈ sdElems sd ↔ some f ∈ sd := by
  simp [sdElems, List.mem_filterMap, id]

theorem sdHas_iff_mem {sd : SetData} {f : ListenerId} :
    sdHas sd f = true ↔ f ∈ sdElems sd := by
  rw [mem_sdElems]
  simp [sdHas]

theorem sdElems_sdDelete (sd : SetData) (f : ListenerId) :
    sdElems (sdDelete sd f) = (sdElems sd).filter (fun x => x ≠ f) := by
  induction sd with
  | nil => rfl
  | cons o r ih =>
    rcases o with _ | g
    · have h1 : sdDelete (none :: r) f = none :: sdDelete r f := by
        simp [sdDelete]
      rw [h1]
      simpa [sdElems] using ih
    · by_cases hg : g = f
      · have h1 : sdDelete (some g :: r) f = none :: sdDelete r f := by
          simp [sdDelete, hg]
        rw [h1]
        have h2 : sdElems (some g :: r) = g :: sdElems r := by simp [sdElems]
        rw [h2]
        have h3 : sdElems (none :: sdDelete r f) = sdElems (sdDelete r f) := by
          simp [sdElems]
        rw [h3, ih, List.filter_cons]
        simp [hg]
      · have h1 : sdDelete (some g :: r) f = some g :: sdDelete r f := by
          simp [sdDelete, hg]
        rw [h1]
        have h2 : sdElems (some g :: sdDelete r f) = g :: sdElems (sdDelete r f) := by
          simp [sdElems]
        have h3 : sdElems (some g :: r) = g :: sdElems r := by simp [sdElems]
        rw [h2, h3, ih, List.filter_cons]
        simp [hg]

theorem sdElems_append (a b : SetData) :
    sdElems (a ++ b) = sdElems a ++ sdElems b := by
  simp [sdElems]

theorem sdDelete_eq_of_not_mem {sd : SetData} {f : ListenerId}
    (h : f ∉ sdElems sd) : sdDelete sd f = sd := by
  rw [mem_sdElems] at h
  induction sd with
  | nil => rfl
  | cons o r ih =>
    simp only [List.mem_cons] at h
    push_neg at h
    obtain ⟨h1, h2⟩ := h
    simp only [sdDelete, List.map_cons]
    rw [if_neg (fun hc : o = some f => h1 hc.symm)]
    have h3 := ih h2
    simp only [sdDelete] at h3
    rw [h3]

theorem sdDelete_drop (sd : SetData) (f : ListenerId) (n : Nat) :
    (sdDelete sd f).drop n = sdDelete (sd.drop n) f := by
  induction n generalizing sd with
  | zero => rfl
  | succ n ih =>
    match sd with
    | [] => rfl
    | o :: r =>
      simp only [sdDelete, List.map_cons, List.drop_succ_cons]
      exact ih r

theorem drop_eq_cons_of_getElem {α : Type} {l : List α} {c : Nat} {x : α}
    (h : l[c]? = some x) : l.drop c = x :: l.drop (c + 1) := by
  induction c generalizing l with
  | zero =>
    match l with
    | [] => simp at h
    | y :: r => simp at h; simp [h]
  | succ c ih =>
    match l with
    | [] => simp at h
    | y :: r =>
      simp only [List.getElem?_cons_succ] at h
      simpa [List.drop] using ih h

theorem mem_sdElems_of_getElem {sd : SetData} {c : Nat} {f : ListenerId}
    (h : sd[c]? = some (some f)) : f ∈ sdElems sd := by
  rw [mem_sdElems]
  have h2 : sd.get? c = some (some f) := by
    rw [List.get?_eq_getElem?]
    exact h
  exact List.get?_mem h2

/-! ## Small-step characterisations of the interpreter -/

/-- `emit` on a name with no map entry, other than `"error"`: returns false. -/
theorem emit_absent (β : ListenerId → List Action) (fuel : Nat) (s : EventEmitter)
    (e : EventName) (args : List Value)
    (hA : mapHas s.listeners e = false) (hE : e ≠ "error")
    (hok : (exec β fuel (.emitR e args) s).1 ≠ .fuelOut) :
    exec β fuel (.emitR e args) s = (.ok (.vBool false), s, [.emitCall e args]) := by
  match fuel with
  | 0 => exact absurd rfl hok
  | fuel + 1 =>
    simp [exec, execBody, hA, hE]

/-- `emit("error", …)` when `"error"` has no map entry: throws, re-raising
the first argument when it is an error value, else `UnhandledError`. -/
theorem emit_error_absent (β : ListenerId → List Action) (fuel : Nat) (s : EventEmitter)
    (args : List Value)
    (hA : mapHas s.listeners "error" = false)
    (hok : (exec β fuel (.emitR "error" args) s).1 ≠ .fuelOut) :
    exec β fuel (.emitR "error" args) s =
      (match args.head? with
       | some v => if isError v then .thrown v else .thrown (.vErr .unhandledError)
       | none => .thrown (.vErr .unhandledError), s, [.emitCall "error" args]) := by
  match fuel with
  | 0 => exact absurd rfl hok
  | fuel + 1 =>
    match hh : args.head? with
    | some v =>
      by_cases hv : isError v = true <;> simp [exec, execBody, hA, hh, hv]
    | none => simp [exec, execBody, hA, hh]

theorem exec_zero (β : ListenerId → List Action) (req : Req) (s : EventEmitter) :
    exec β 0 req s = (.fuelOut, s, []) := rfl

/-- `emit`'s loop over a listener set with no present elements: a no-op. -/
theorem emitLoop_all_holes (β : ListenerId → List Action) (fuel : Nat)
    (s : EventEmitter) (e : EventName) (args : List Value)
    (hE : sdElems (sdOf s e) = []) :
    ∀ c, (exec β fuel (.emitLoopR e args c) s).1 ≠ .fuelOut →
      exec β fuel (.emitLoopR e args c) s = (.ok .vUnit, s, []) := by
  induction fuel with
  | zero => intro c hok; exact absurd rfl hok
  | succ fuel ih =>
    intro c hok
    match hg : (sdOf s e)[c]? with
    | none => simp [exec, execBody, hg]
    | some none =>
      have hstep : exec β (fuel + 1) (.emitLoopR e args c) s =
          exec β fuel (.emitLoopR e args (c + 1)) s := by
        simp [exec, execBody, hg]
      rw [hstep] at hok ⊢
      exact ih (c + 1) hok
    | some (some f) =>
      have hm := mem_sdElems_of_getElem hg
      rw [hE] at hm
      exact absurd hm (List.not_mem_nil f)

/-- If the loop runs out of fuel, so does the enclosing `emit`. -/
theorem emitR_fuelOut_of_loop (β : ListenerId → List Action) (fuel : Nat)
    (s : EventEmitter) (e : EventName) (args : List Value)
    (hHas : mapHas s.listeners e = true)
    (hl : (exec β fuel (.emitLoopR e args 0) s).1 = .fuelOut) :
    (exec β (fuel + 1) (.emitR e args) s).1 = .fuelOut := by
  rcases hr : exec β fuel (.emitLoopR e args 0) s with ⟨o, s2, tr⟩
  rw [hr] at hl
  simp at hl
  subst hl
  simp [exec, execBody, hHas, hr]

/-- `emit` on an event whose set is present but has no elements:
returns false, no listener invoked, state unchanged. -/
theorem emit_empty_set (β : ListenerId → List Action) (fuel : Nat)
    (s : EventEmitter) (e : EventName) (args : List Value) (sd : SetData)
    (hG : mapGet s.listeners e = some sd) (hE : sdElems sd = [])
    (hok : (exec β fuel (.emitR e args) s).1 ≠ .fuelOut) :
    exec β fuel (.emitR e args) s = (.ok (.vBool false), s, [.emitCall e args]) := by
  match fuel with
  | 0 => exact absurd rfl hok
  | fuel + 1 =>
    have hHas : mapHas s.listeners e = true := by simp [mapHas, hG]
    have hsd : sdOf s e = sd := by simp [sdOf, hG]
    have hE2 : sdElems (sdOf s e) = [] := by rw [hsd]; exact hE
    have hloopOk : (exec β fuel (.emitLoopR e args 0) s).1 ≠ .fuelOut := by
      intro hbad
      exact hok (emitR_fuelOut_of_loop β fuel s e args hHas hbad)
    have hloop := emitLoop_all_holes β fuel s e args hE2 0 hloopOk
    have hn : sdSize (sdOf s e) = 0 := by simp [sdSize, hE2]
    simp [exec, execBody, hHas, hloop, hn]

/-- `removeEventListener` when nobody listens for `"removeListener"`:
deterministic small step.  The nested `emit` finds no listeners and
returns immediately, after which the listener is deleted from the set and
from the meta map. -/
theorem remove_char (β : ListenerId → List Action) (fuel : Nat)
    (s : EventEmitter) (e : EventName) (f : ListenerId) (sd : SetData)
    (hrm : mapHas s.listeners "removeListener" = false)
    (hG : mapGet s.listeners e = some sd)
    (hHas : sdHas sd f = true)
    (hok : (exec β fuel (.remove e f) s).1 ≠ .fuelOut) :
    exec β fuel (.remove e f) s =
      (.ok (.vBool true), removeCommit s e f sd,
       [.emitCall "removeListener" [.vStr e, .vNat f]]) := by
  match fuel with
  | 0 => exact absurd rfl hok
  | fuel + 1 =>
    have hre : ("removeListener" : EventName) ≠ "error" := by decide
    have hemitOk : (exec β fuel (.emitR "removeListener" [.vStr e, .vNat f]) s).1 ≠ .fuelOut := by
      intro hbad
      apply hok
      rcases hr : exec β fuel (.emitR "removeListener" [.vStr e, .vNat f]) s with ⟨o, s2, tr⟩
      rw [hr] at hbad
      simp at hbad
      subst hbad
      simp [exec, execBody, hG, hHas, hr]
    have hemit := emit_absent β fuel s "removeListener" [.vStr e, .vNat f] hrm hre hemitOk
    rcases hmm : mapGet s.listenerMeta e with _ | mm <;>
      simp [exec, execBody, hG, hHas, hemit, hmm, removeCommit]


/-- The notification loop of `removeAllListeners(eventName)` when nobody
listens for `"removeListener"`: fires one dispatch per listener, changes
nothing. -/
theorem rmNotify_char (β : ListenerId → List Action) (fuel : Nat)
    (s : EventEmitter) (e : EventName)
    (hrm : mapHas s.listeners "removeListener" = false) :
    ∀ ls, (exec β fuel (.rmNotify e ls) s).1 ≠ .fuelOut →
      exec β fuel (.rmNotify e ls) s =
        (.ok .vUnit, s,
         ls.map (fun f => .emitCall "removeListener" [.vStr e, .vNat f])) := by
  induction fuel with
  | zero => intro ls hok; exact absurd rfl hok
  | succ fuel ih =>
    intro ls hok
    match ls with
    | [] => simp [exec, execBody]
    | f :: rest =>
      have hre : ("removeListener" : EventName) ≠ "error" := by decide
      have hemitOk : (exec β fuel (.emitR "removeListener" [.vStr e, .vNat f]) s).1 ≠ .fuelOut := by
        intro hbad
        apply hok
        rcases hr : exec β fuel (.emitR "removeListener" [.vStr e, .vNat f]) s with ⟨o, s2, tr⟩
        rw [hr] at hbad
        simp at hbad
        subst hbad
        simp [exec, execBody, hr]
      have hemit := emit_absent β fuel s "removeListener" [.vStr e, .vNat f] hrm hre hemitOk
      have hrestOk : (exec β fuel (.rmNotify e rest) s).1 ≠ .fuelOut := by
        intro hbad
        apply hok
        rcases hr : exec β fuel (.rmNotify e rest) s with ⟨o, s2, tr⟩
        rw [hr] at hbad
        simp at hbad
        subst hbad
        simp [exec, execBody, hemit, hr]
      have hrest := ih rest hrestOk
      simp [exec, execBody, hemit, hrest]

/-- `removeAllListeners(eventName)` on a present, truthy event name when
nobody listens for `"removeListener"`: deletes the event from both maps and
fires one `"removeListener"` dispatch per listener, in reverse
registration order. -/
theorem removeAllSingle_char (β : ListenerId → List Action) (fuel : Nat)
    (s : EventEmitter) (e : EventName) (sd : SetData)
    (hrm : mapHas s.listeners "removeListener" = false)
    (hne : e ≠ "")
    (hG : mapGet s.listeners e = some sd)
    (hok : (exec β fuel (.removeAll (some e)) s).1 ≠ .fuelOut) :
    exec β fuel (.removeAll (some e)) s =
      (.ok (.vBool true), deleteBoth s e,
       ((sdElems sd).reverse).map (fun f => .emitCall "removeListener" [.vStr e, .vNat f])) := by
  match fuel with
  | 0 => exact absurd rfl hok
  | fuel + 1 =>
    have hfalsy : nameFalsy (some e) = false := by
      simp [nameFalsy]
      exact hne
    have hermne : e ≠ "removeListener" := by
      intro hc
      rw [hc] at hG
      simp [mapHas, hG] at hrm
    have hrm2 : mapHas (deleteBoth s e).listeners "removeListener" = false := by
      simp only [deleteBoth, mapHas]
      rw [mapGet_mapDelete_ne _ _ _ (fun hc => hermne hc.symm)]
      simpa [mapHas] using hrm
    have hnotOk : (exec β fuel (.rmNotify e (sdElems sd).reverse) (deleteBoth s e)).1 ≠ .fuelOut := by
      intro hbad
      apply hok
      rcases hr : exec β fuel (.rmNotify e (sdElems sd).reverse) (deleteBoth s e) with ⟨o, s2, tr⟩
      rw [hr] at hbad
      simp at hbad
      subst hbad
      simp only [deleteBoth] at hr
      simp [exec, execBody, hfalsy, hG, hr]
    have hnot := rmNotify_char β fuel (deleteBoth s e) e hrm2 (sdElems sd).reverse hnotOk
    simp only [deleteBoth] at hnot
    simp [exec, execBody, hfalsy, hG, hnot, deleteBoth]

/-- `List.flatMap` only depends on the values of the function on members. -/
theorem flatMap_congr_mem {α β : Type} {l : List α} {f g : α → List β}
    (h : ∀ x ∈ l, f x = g x) : l.flatMap f = l.flatMap g := by
  induction l with
  | nil => rfl
  | cons x r ih =>
    simp only [List.flatMap_cons]
    rw [h x (by simp), ih (fun y hy => h y (by simp [hy]))]

/-- Tearing an event down does not change the listeners of other events. -/
theorem elemsOf_deleteBoth_ne (s : EventEmitter) (k k2 : EventName) (h : k2 ≠ k) :
    elemsOf (deleteBoth s k) k2 = elemsOf s k2 := by
  simp [elemsOf, sdOf, deleteBoth, mapGet_mapDelete_ne _ _ _ h]

/-- `rmCallsOf` is insensitive to tearing other events down. -/
theorem rmCallsOf_deleteBoth_ne (s : EventEmitter) (k k2 : EventName) (h : k2 ≠ k) :
    rmCallsOf (deleteBoth s k) k2 = rmCallsOf s k2 := by
  simp [rmCallsOf, elemsOf_deleteBoth_ne s k k2 h]

/-- The reverse-order event loop of `removeAllListeners()`: with no
`"removeListener"` listeners and well-formed distinct keys, it deletes each
processed event from both maps and fires the per-listener dispatches of
each event in list order. -/
theorem removeAllKeys_char (β : ListenerId → List Action) (fuel : Nat) :
    ∀ (keys : List EventName) (s : EventEmitter),
      mapHas s.listeners "removeListener" = false →
      keys.Nodup →
      (∀ k ∈ keys, mapHas s.listeners k = true) →
      "" ∉ keys →
      (exec β fuel (.removeAllKeys keys) s).1 ≠ .fuelOut →
      exec β fuel (.removeAllKeys keys) s =
        (.ok .vUnit, keys.foldl deleteBoth s, keys.flatMap (rmCallsOf s)) := by
  induction fuel with
  | zero =>
    intro keys s _ _ _ _ hok
    exact absurd rfl hok
  | succ fuel ih =>
    intro keys s hrm hnd hall hne hok
    match keys with
    | [] => simp [exec, execBody]
    | k :: rest =>
      have hkhas : mapHas s.listeners k = true := hall k (by simp)
      obtain ⟨sd, hG⟩ : ∃ sd, mapGet s.listeners k = some sd := by
        rw [mapHas] at hkhas
        exact Option.isSome_iff_exists.mp hkhas
      have hkne : k ≠ "" := by
        intro hc
        exact hne (by rw [← hc]; simp)
      have h1ok : (exec β fuel (.removeAll (some k)) s).1 ≠ .fuelOut := by
        intro hbad
        apply hok
        rcases hr : exec β fuel (.removeAll (some k)) s with ⟨o, s2, tr⟩
        rw [hr] at hbad
        simp at hbad
        subst hbad
        simp [exec, execBody, hr]
      have h1 := removeAllSingle_char β fuel s k sd hrm hkne hG h1ok
      have hkrm : k ≠ "removeListener" := by
        intro hc
        rw [hc] at hkhas
        rw [hkhas] at hrm
        exact Bool.noConfusion hrm
      have hrm1 : mapHas (deleteBoth s k).listeners "removeListener" = false := by
        simp only [deleteBoth, mapHas]
        rw [mapGet_mapDelete_ne _ _ _ (fun hc => hkrm hc.symm)]
        simpa [mapHas] using hrm
      have hall1 : ∀ k2 ∈ rest, mapHas (deleteBoth s k).listeners k2 = true := by
        intro k2 hk2
        have hk2ne : k2 ≠ k := by
          intro hc
          subst hc
          exact (List.nodup_cons.mp hnd).1 hk2
        simp only [deleteBoth, mapHas]
        rw [mapGet_mapDelete_ne _ _ _ hk2ne]
        exact hall k2 (by simp [hk2])
      have hrestOk : (exec β fuel (.removeAllKeys rest) (deleteBoth s k)).1 ≠ .fuelOut := by
        intro hbad
        apply hok
        rcases hr : exec β fuel (.removeAllKeys rest) (deleteBoth s k) with ⟨o, s2, tr⟩
        rw [hr] at hbad
        simp at hbad
        subst hbad
        simp [exec, execBody, h1, hr]
      have h2 := ih rest (deleteBoth s k) hrm1 (List.nodup_cons.mp hnd).2 hall1
        (fun hc => hne (by simp [hc])) hrestOk
      have htr : rest.flatMap (rmCallsOf (deleteBoth s k)) = rest.flatMap (rmCallsOf s) := by
        apply flatMap_congr_mem
        intro k2 hk2
        have hk2ne : k2 ≠ k := by
          intro hc
          subst hc
          exact (List.nodup_cons.mp hnd).1 hk2
        exact rmCallsOf_deleteBoth_ne s k k2 hk2ne
      have hrk : rmCallsOf s k =
          ((sdElems sd).reverse).map (fun f => .emitCall "removeListener" [.vStr k, .vNat f]) := by
        simp [rmCallsOf, elemsOf, sdOf, hG]
      simp [exec, execBody, h1, h2, htr, hrk]

/-- Folding `deleteBoth` over a list covering every key empties the
listeners map. -/
theorem foldl_deleteBoth_listeners_nil :
    ∀ (ks : List EventName) (s : EventEmitter),
      (mapKeys s.listeners).Nodup →
      (∀ k ∈ mapKeys s.listeners, k ∈ ks) →
      (ks.foldl deleteBoth s).listeners = [] := by
  intro ks
  induction ks with
  | nil =>
    intro s _ hcov
    simp only [List.foldl_nil]
    match hm : s.listeners with
    | [] => rfl
    | p :: r =>
      exfalso
      exact absurd (hcov p.1 (by rw [hm]; simp [mapKeys])) (List.not_mem_nil p.1)
  | cons k rest ih =>
    intro s hnd hcov
    simp only [List.foldl_cons]
    apply ih
    · have : mapKeys (deleteBoth s k).listeners = (mapKeys s.listeners).erase k := by
        simp [deleteBoth, mapKeys_mapDelete]
      rw [this]
      exact hnd.erase k
    · intro k2 hk2
      have hkeys : mapKeys (deleteBoth s k).listeners = (mapKeys s.listeners).erase k := by
        simp [deleteBoth, mapKeys_mapDelete]
      rw [hkeys] at hk2
      have hk2mem := List.mem_of_mem_erase hk2
      have hk2ne : k2 ≠ k := ((List.Nodup.mem_erase_iff hnd).mp hk2).1
      have := hcov k2 hk2mem
      simp at this
      rcases this with hc | hm
      · exact absurd hc hk2ne
      · exact hm

/-- `removeAllListeners()` (or with any falsy argument) when nobody
listens for `"removeListener"`, keys are distinct and the empty-string
key is absent: processes every event in reverse registration order,
deletes everything, fires one `"removeListener"` dispatch per removed
listener, and returns `true` iff the listeners map had at least one key. -/
theorem removeAll_noarg_char (β : ListenerId → List Action) (fuel : Nat)
    (s : EventEmitter)
    (hrm : mapHas s.listeners "removeListener" = false)
    (hnd : (mapKeys s.listeners).Nodup)
    (hne : "" ∉ mapKeys s.listeners)
    (hok : (exec β fuel (.removeAll none) s).1 ≠ .fuelOut) :
    exec β fuel (.removeAll none) s =
      (.ok (.vBool (decide (0 < (mapKeys s.listeners).reverse.length))),
       ((mapKeys s.listeners).reverse).foldl deleteBoth s,
       ((mapKeys s.listeners).reverse).flatMap (rmCallsOf s)) ∧
    (((mapKeys s.listeners).reverse).foldl deleteBoth s).listeners = [] := by
  match fuel with
  | 0 => exact absurd rfl hok
  | fuel + 1 =>
    have hloopOk : (exec β fuel (.removeAllKeys (mapKeys s.listeners).reverse) s).1 ≠ .fuelOut := by
      intro hbad
      apply hok
      rcases hr : exec β fuel (.removeAllKeys (mapKeys s.listeners).reverse) s with ⟨o, s2, tr⟩
      rw [hr] at hbad
      simp at hbad
      subst hbad
      simp [exec, execBody, nameFalsy, hr]
    have hloop := removeAllKeys_char β fuel (mapKeys s.listeners).reverse s hrm
      (List.nodup_reverse.mpr hnd) (fun k hk => (mapHas_iff_mem _ _).mpr (List.mem_reverse.mp hk))
      (fun hc => hne (List.mem_reverse.mp hc)) hloopOk
    refine ⟨by simp [exec, execBody, nameFalsy, hloop], ?_⟩
    exact foldl_deleteBoth_listeners_nil _ s hnd (fun k hk => List.mem_reverse.mpr hk)


/-- One-layer unfolding of the interpreter. -/
theorem exec_succ (β : ListenerId → List Action) (n : Nat) (req : Req) (s : EventEmitter) :
    exec β (n + 1) req s = execBody β (exec β n) req s := rfl

/-- An empty listener body is a no-op. -/
theorem exec_script_nil (β : ListenerId → List Action) (n : Nat) (s : EventEmitter) :
    exec β (n + 1) (.script []) s = (.ok .vUnit, s, []) := rfl

/-- `loopTrace` only depends on the once-flags of the listed listeners. -/
theorem loopTrace_congr (s1 s2 : EventEmitter) (e : EventName) (args : List Value) :
    ∀ l : SetData, (∀ g ∈ sdElems l, onceFlag s1 e g = onceFlag s2 e g) →
      loopTrace s1 e args l = loopTrace s2 e args l := by
  intro l
  induction l with
  | nil => intro _; rfl
  | cons o r ih =>
    intro h
    rcases o with _ | g
    · exact ih (fun g hg => h g (by simpa [sdElems] using hg))
    · have hg : onceFlag s1 e g = onceFlag s2 e g := h g (by simp [sdElems])
      have hr := ih (fun g2 hg2 => h g2 (by simp [sdElems] at hg2 ⊢; exact Or.inr hg2))
      simp only [loopTrace, hg, hr]

/-- With no once-flag set, the loop trace is one invocation per listed
listener, in order. -/
theorem loopTrace_no_once (s : EventEmitter) (e : EventName) (args : List Value) :
    ∀ l : SetData, (∀ g ∈ sdElems l, onceFlag s e g = false) →
      loopTrace s e args l = (sdElems l).map (fun g => .invoke e g args) := by
  intro l
  induction l with
  | nil => intro _; rfl
  | cons o r ih =>
    intro h
    rcases o with _ | g
    · have := ih (fun g hg => h g (by simpa [sdElems] using hg))
      simpa [loopTrace, sdElems] using this
    · have hg : onceFlag s e g = false := h g (by simp [sdElems])
      have hr := ih (fun g2 hg2 => h g2 (by simp [sdElems] at hg2 ⊢; exact Or.inr hg2))
      have he : sdElems (some g :: r) = g :: sdElems r := by simp [sdElems]
      simp [loopTrace, hg, hr, he]

/-- Invocation count of a listener in a loop trace: its multiplicity among
the listed listeners. -/
theorem countInvoke_loopTrace (s : EventEmitter) (e : EventName) (args : List Value)
    (f : ListenerId) :
    ∀ l : SetData, countInvoke (loopTrace s e args l) e f = (sdElems l).count f := by
  intro l
  induction l with
  | nil => rfl
  | cons o r ih =>
    rcases o with _ | g
    · simpa [loopTrace, sdElems] using ih
    · have he : sdElems (some g :: r) = g :: sdElems r := by simp [sdElems]
      by_cases hg : g = f
      · subst hg
        by_cases ho : onceFlag s e g = true <;>
          simp [loopTrace, ho, he, countInvoke, List.filter, ih, List.count_cons] <;>
          simp [countInvoke] at ih <;> omega
      · by_cases ho : onceFlag s e g = true <;>
          simp [loopTrace, ho, he, countInvoke, List.filter, hg, ih, List.count_cons] <;>
          simp [countInvoke] at ih <;> omega

/-- A once-listener's invocation is immediately followed in the loop trace
by its `"removeListener"` dispatch. -/
theorem loopTrace_adjacent (s : EventEmitter) (e : EventName) (args : List Value)
    (f : ListenerId) (honce : onceFlag s e f = true) :
    ∀ l : SetData, f ∈ sdElems l →
      ∃ t1 t2, loopTrace s e args l =
        t1 ++ .invoke e f args :: .emitCall "removeListener" [.vStr e, .vNat f] :: t2 := by
  intro l
  induction l with
  | nil => intro h; exact absurd h (List.not_mem_nil f)
  | cons o r ih =>
    intro h
    rcases o with _ | g
    · have hm : f ∈ sdElems r := by simpa [sdElems] using h
      obtain ⟨t1, t2, ht⟩ := ih hm
      exact ⟨t1, t2, by simpa [loopTrace] using ht⟩
    · by_cases hg : g = f
      · subst hg
        refine ⟨[], loopTrace s e args r, ?_⟩
        simp [loopTrace, honce]
      · have hm : f ∈ sdElems r := by
          simp [sdElems] at h
          rcases h with hc | hm
          · exact absurd hc.symm hg
          · simpa [sdElems] using hm
        obtain ⟨t1, t2, ht⟩ := ih hm
        by_cases ho : onceFlag s e g = true
        · exact ⟨.invoke e g args :: .emitCall "removeListener" [.vStr e, .vNat g] :: t1, t2,
            by simp [loopTrace, ho, ht]⟩
        · exact ⟨.invoke e g args :: t1, t2, by simp [loopTrace, ho, ht]⟩

/-- A `getElem?` miss means the cursor is past the end. -/
theorem drop_nil_of_getElem_none {α : Type} {l : List α} {c : Nat}
    (h : l[c]? = none) : l.drop c = [] := by
  have hlen : l.length ≤ c := by
    by_contra hlt
    push_neg at hlt
    rw [List.getElem?_eq_getElem hlt] at h
    exact Option.noConfusion h
  exact List.drop_eq_nil_of_le hlen

/-- Splitting the elements of a set at a cursor position. -/
theorem sdElems_drop_cons {sd : SetData} {c : Nat} {f : ListenerId}
    (h : sd[c]? = some (some f)) :
    sdElems (sd.drop c) = f :: sdElems (sd.drop (c + 1)) := by
  rw [drop_eq_cons_of_getElem h]
  simp [sdElems]

/-- With a duplicate-free element list, the listener at the cursor does not
occur after the cursor. -/
theorem not_mem_drop_succ_of_nodup {sd : SetData} {c : Nat} {f : ListenerId}
    (hnd : (sdElems sd).Nodup) (h : sd[c]? = some (some f)) :
    f ∉ sdElems (sd.drop (c + 1)) := by
  intro hm
  have hsplit : sd = sd.take c ++ sd.drop c := (List.take_append_drop c sd).symm
  have helems : sdElems sd = sdElems (sd.take c) ++ sdElems (sd.drop c) := by
    conv_lhs => rw [hsplit]
    exact sdElems_append _ _
  rw [sdElems_drop_cons h] at helems
  rw [helems] at hnd
  have hnd2 := hnd.of_append_right
  rw [List.nodup_cons] at hnd2
  exact hnd2.1 hm

/-- The listener set of `e` after the commit. -/
theorem mapGet_removeCommit_self (s : EventEmitter) (e : EventName) (f : ListenerId)
    (sd : SetData) :
    mapGet (removeCommit s e f sd).listeners e = some (sdDelete sd f) := by
  simp [removeCommit, mapGet_mapSet_self]

/-- The commit does not change the set of event keys. -/
theorem mapKeys_removeCommit (s : EventEmitter) (e : EventName) (f : ListenerId)
    (sd : SetData) (hG : mapGet s.listeners e = some sd) :
    mapKeys (removeCommit s e f sd).listeners = mapKeys s.listeners := by
  have hHas : mapHas s.listeners e = true := by simp [mapHas, hG]
  simp [removeCommit, mapKeys_mapSet_of_has _ _ _ hHas]

/-- The commit does not change the once-flag of any other listener. -/
theorem onceFlag_removeCommit_ne (s : EventEmitter) (e : EventName) (f g : ListenerId)
    (sd : SetData) (hg : g ≠ f) :
    onceFlag (removeCommit s e f sd) e g = onceFlag s e g := by
  rcases hmm : mapGet s.listenerMeta e with _ | mm
  · simp [onceFlag, removeCommit, hmm]
  · simp [onceFlag, removeCommit, hmm, mapGet_mapSet_self,
      lmapGet_lmapDelete_ne _ _ _ hg]

/-- The central characterisation of `emit`'s loop under inert listeners
(`β` empty) when nobody listens for `"removeListener"`: the loop visits
exactly the present entries of the set from the cursor on, invoking each
once in order, removing (only) the visited once-listeners through the
normal `removeEventListener` path, and never throws. -/
theorem emitLoop_char (β : ListenerId → List Action) (hβ : ∀ i, β i = [])
    (fuel : Nat) :
    ∀ (s : EventEmitter) (e : EventName) (args : List Value) (c : Nat) (sd : SetData),
      mapHas s.listeners "removeListener" = false →
      mapGet s.listeners e = some sd →
      (sdElems sd).Nodup →
      (exec β fuel (.emitLoopR e args c) s).1 ≠ .fuelOut →
      ∃ s1 sd1,
        exec β fuel (.emitLoopR e args c) s =
          (.ok .vUnit, s1, loopTrace s e args (sd.drop c)) ∧
        mapKeys s1.listeners = mapKeys s.listeners ∧
        mapGet s1.listeners e = some sd1 ∧
        List.Sublist (sdElems sd1) (sdElems sd) ∧
        (∀ g, g ∈ sdElems sd1 ↔ (g ∈ sdElems sd ∧
            ¬(g ∈ sdElems (sd.drop c) ∧ onceFlag s e g = true))) ∧
        ((∀ g ∈ sdElems (sd.drop c), onceFlag s e g = false) → s1 = s) := by
  induction fuel with
  | zero => intro s e args c sd _ _ _ hok; exact absurd rfl hok
  | succ fuel ih =>
    intro s e args c sd hrm hG hnd hok
    have hsd : sdOf s e = sd := by simp [sdOf, hG]
    match hg : sd[c]? with
    | none =>
      have hdrop : sd.drop c = [] := drop_nil_of_getElem_none hg
      have hrun : exec β (fuel + 1) (.emitLoopR e args c) s = (.ok .vUnit, s, []) := by
        simp [exec, execBody, hsd, hg]
      refine ⟨s, sd, ?_, rfl, hG, List.Sublist.refl _, ?_, fun _ => rfl⟩
      · rw [hrun, hdrop]
        rfl
      · intro g
        rw [hdrop]
        simp [sdElems]
    | some none =>
      have hdrop : sd.drop c = none :: sd.drop (c + 1) := drop_eq_cons_of_getElem hg
      have helems : sdElems (sd.drop c) = sdElems (sd.drop (c + 1)) := by
        rw [hdrop]; simp [sdElems]
      have hstep : exec β (fuel + 1) (.emitLoopR e args c) s =
          exec β fuel (.emitLoopR e args (c + 1)) s := by
        simp [exec, execBody, hsd, hg]
      rw [hstep] at hok
      obtain ⟨s1, sd1, hrun, hkeys, hG1, hsub, hmem, hpure⟩ :=
        ih s e args (c + 1) sd hrm hG hnd hok
      refine ⟨s1, sd1, ?_, hkeys, hG1, hsub, ?_, ?_⟩
      · rw [hstep, hrun, hdrop]
        simp [loopTrace]
      · intro g
        rw [helems]
        exact hmem g
      · intro hno
        exact hpure (fun g hg2 => hno g (by rw [helems]; exact hg2))
    | some (some f) =>
      have hfmem : f ∈ sdElems sd := mem_sdElems_of_getElem hg
      have hdrop : sd.drop c = some f :: sd.drop (c + 1) := drop_eq_cons_of_getElem hg
      have helems : sdElems (sd.drop c) = f :: sdElems (sd.drop (c + 1)) :=
        sdElems_drop_cons hg
      have hfnot : f ∉ sdElems (sd.drop (c + 1)) := not_mem_drop_succ_of_nodup hnd hg
      rcases fuel with _ | m
      · exfalso
        apply hok
        simp [exec, execBody, hsd, hg]
      · by_cases honce : onceFlag s e f = true
        · -- the finally removes f through removeEventListener
          have hsdHas : sdHas sd f = true := sdHas_iff_mem.mpr hfmem
          have hremOk : (exec β (m + 1) (.remove e f) s).1 ≠ .fuelOut := by
            intro hbad
            apply hok
            rcases hr : exec β (m + 1) (.remove e f) s with ⟨o, t, w⟩
            rw [hr] at hbad
            simp at hbad
            subst hbad
            rw [exec_succ]
            simp [execBody, hsd, hg, hβ, exec_script_nil, honce, hr]
          have hrem := remove_char β (m + 1) s e f sd hrm hG hsdHas hremOk
          have hG2 : mapGet (removeCommit s e f sd).listeners e = some (sdDelete sd f) :=
            mapGet_removeCommit_self s e f sd
          have hkeys2 : mapKeys (removeCommit s e f sd).listeners = mapKeys s.listeners :=
            mapKeys_removeCommit s e f sd hG
          have hrm2 : mapHas (removeCommit s e f sd).listeners "removeListener" = false := by
            rw [Bool.eq_false_iff]
            intro hc
            have := (mapHas_iff_mem _ _).mp hc
            rw [hkeys2] at this
            rw [(mapHas_iff_mem _ _).mpr this] at hrm
            exact Bool.noConfusion hrm
          have hnd2 : (sdElems (sdDelete sd f)).Nodup := by
            rw [sdElems_sdDelete]
            exact hnd.filter _
          have hdrop2 : (sdDelete sd f).drop (c + 1) = sd.drop (c + 1) := by
            rw [sdDelete_drop]
            exact sdDelete_eq_of_not_mem hfnot
          have hloop2Ok :
              (exec β (m + 1) (.emitLoopR e args (c + 1)) (removeCommit s e f sd)).1 ≠ .fuelOut := by
            intro hbad
            apply hok
            rcases hr : exec β (m + 1) (.emitLoopR e args (c + 1)) (removeCommit s e f sd)
              with ⟨o, t, w⟩
            rw [hr] at hbad
            simp at hbad
            subst hbad
            rw [exec_succ]
            simp [execBody, hsd, hg, hβ, exec_script_nil, honce, hrem, hr]
          obtain ⟨s1, sd1, hrun, hkeys1, hG1, hsub1, hmem1, hpure1⟩ :=
            ih (removeCommit s e f sd) e args (c + 1) (sdDelete sd f) hrm2 hG2 hnd2 hloop2Ok
          have htr2 : loopTrace (removeCommit s e f sd) e args ((sdDelete sd f).drop (c + 1)) =
              loopTrace s e args (sd.drop (c + 1)) := by
            rw [hdrop2]
            apply loopTrace_congr
            intro g hgm
            exact onceFlag_removeCommit_ne s e f g sd (fun hc => hfnot (hc ▸ hgm))
          refine ⟨s1, sd1, ?_, by rw [hkeys1, hkeys2], hG1,
            hsub1.trans (by rw [sdElems_sdDelete]; exact List.filter_sublist _), ?_, ?_⟩
          · rw [hdrop]
            have hloopTr : loopTrace s e args (some f :: sd.drop (c + 1)) =
                .invoke e f args :: .emitCall "removeListener" [.vStr e, .vNat f] ::
                  loopTrace s e args (sd.drop (c + 1)) := by
              simp [loopTrace, honce]
            rw [hloopTr]
            rw [htr2] at hrun
            rw [exec_succ]
            simp [execBody, hsd, hg, hβ, exec_script_nil, honce, hrem, hrun]
          · intro g
            rw [hmem1 g, hdrop2, sdElems_sdDelete, helems]
            by_cases hgf : g = f
            · subst hgf
              simp only [List.mem_filter, decide_eq_true_eq]
              constructor
              · rintro ⟨hx1, _⟩
                exact absurd rfl hx1.2
              · rintro ⟨_, hx2⟩
                exact absurd ⟨List.mem_cons_self _ _, honce⟩ hx2
            · rw [onceFlag_removeCommit_ne s e f g sd hgf]
              simp only [List.mem_filter, decide_eq_true_eq]
              constructor
              · rintro ⟨⟨hx1, _⟩, hx2⟩
                refine ⟨hx1, ?_⟩
                rintro ⟨hy1, hy2⟩
                rcases List.mem_cons.mp hy1 with hc | hy3
                · exact hgf hc
                · exact hx2 ⟨hy3, hy2⟩
              · rintro ⟨hx1, hx2⟩
                refine ⟨⟨hx1, hgf⟩, ?_⟩
                rintro ⟨hy1, hy2⟩
                exact hx2 ⟨List.mem_cons_of_mem f hy1, hy2⟩
          · intro hno
            exfalso
            have := hno f (by rw [helems]; simp)
            rw [honce] at this
            exact Bool.noConfusion this
        · -- not a once-listener: no removal, state unchanged by the visit
          have hloop2Ok : (exec β (m + 1) (.emitLoopR e args (c + 1)) s).1 ≠ .fuelOut := by
            intro hbad
            apply hok
            rcases hr : exec β (m + 1) (.emitLoopR e args (c + 1)) s with ⟨o, t, w⟩
            rw [hr] at hbad
            simp at hbad
            subst hbad
            rw [exec_succ]
            simp [execBody, hsd, hg, hβ, exec_script_nil, honce, hr]
          obtain ⟨s1, sd1, hrun, hkeys1, hG1, hsub1, hmem1, hpure1⟩ :=
            ih s e args (c + 1) sd hrm hG hnd hloop2Ok
          refine ⟨s1, sd1, ?_, hkeys1, hG1, hsub1, ?_, ?_⟩
          · rw [hdrop]
            have hloopTr : loopTrace s e args (some f :: sd.drop (c + 1)) =
                .invoke e f args :: loopTrace s e args (sd.drop (c + 1)) := by
              simp [loopTrace, honce]
            rw [hloopTr]
            rw [exec_succ]
            simp [execBody, hsd, hg, hβ, exec_script_nil, honce, hrun]
          · intro g
            rw [hmem1 g, helems]
            by_cases hgf : g = f
            · subst hgf
              constructor
              · rintro ⟨hx1, _⟩
                refine ⟨hx1, ?_⟩
                rintro ⟨_, hy2⟩
                exact honce hy2
              · rintro ⟨hx1, _⟩
                refine ⟨hx1, ?_⟩
                rintro ⟨_, hy2⟩
                exact honce hy2
            · constructor
              · rintro ⟨hx1, hx2⟩
                refine ⟨hx1, ?_⟩
                rintro ⟨hy1, hy2⟩
                rcases List.mem_cons.mp hy1 with hc | hy3
                · exact hgf hc
                · exact hx2 ⟨hy3, hy2⟩
              · rintro ⟨hx1, hx2⟩
                refine ⟨hx1, ?_⟩
                rintro ⟨hy1, hy2⟩
                exact hx2 ⟨List.mem_cons_of_mem f hy1, hy2⟩
          · intro hno
            apply hpure1
            intro g hgm
            exact hno g (by rw [helems]; simp [hgm])


/-- `emit` under inert listeners when nobody listens for
`"removeListener"` and the event has an entry: returns `true` iff the set
is non-empty, invokes exactly the present listeners in registration order
(with once-removals interleaved), and never throws. -/
theorem emit_char (β : ListenerId → List Action) (hβ : ∀ i, β i = [])
    (fuel : Nat) (s : EventEmitter) (e : EventName) (args : List Value) (sd : SetData)
    (hrm : mapHas s.listeners "removeListener" = false)
    (hG : mapGet s.listeners e = some sd)
    (hnd : (sdElems sd).Nodup)
    (hok : (exec β fuel (.emitR e args) s).1 ≠ .fuelOut) :
    ∃ s1 sd1,
      exec β fuel (.emitR e args) s =
        (.ok (.vBool (decide (0 < sdSize sd))), s1,
         .emitCall e args :: loopTrace s e args sd) ∧
      mapKeys s1.listeners = mapKeys s.listeners ∧
      mapGet s1.listeners e = some sd1 ∧
      List.Sublist (sdElems sd1) (sdElems sd) ∧
      (∀ g, g ∈ sdElems sd1 ↔
        (g ∈ sdElems sd ∧ ¬(onceFlag s e g = true))) ∧
      ((∀ g ∈ sdElems sd, onceFlag s e g = false) → s1 = s) := by
  match fuel with
  | 0 => exact absurd rfl hok
  | fuel + 1 =>
    have hHas : mapHas s.listeners e = true := by simp [mapHas, hG]
    have hsd : sdOf s e = sd := by simp [sdOf, hG]
    have hloopOk : (exec β fuel (.emitLoopR e args 0) s).1 ≠ .fuelOut := by
      intro hbad
      exact hok (emitR_fuelOut_of_loop β fuel s e args hHas hbad)
    obtain ⟨s1, sd1, hrun, hkeys, hG1, hsub, hmem, hpure⟩ :=
      emitLoop_char β hβ fuel s e args 0 sd hrm hG hnd hloopOk
    rw [List.drop_zero] at hrun hmem hpure
    refine ⟨s1, sd1, ?_, hkeys, hG1, hsub, ?_, hpure⟩
    · rw [exec_succ]
      simp [execBody, hHas, hsd, hrun]
    · intro g
      rw [hmem g]
      constructor
      · rintro ⟨hx1, hx2⟩
        exact ⟨hx1, fun hy => hx2 ⟨hx1, hy⟩⟩
      · rintro ⟨hx1, hx2⟩
        exact ⟨hx1, fun hy => hx2 hy.2⟩


/-! ## Lemmas for the lockstep invariant -/

theorem mapGet_mem {β : Type} {m : List (EventName × β)} {k : EventName} {v : β}
    (h : mapGet m k = some v) : (k, v) ∈ m := by
  induction m with
  | nil => simp [mapGet] at h
  | cons p r ih =>
    obtain ⟨k2, v2⟩ := p
    by_cases hk : k2 = k
    · subst hk
      simp only [mapGet, if_pos rfl] at h
      cases h
      simp
    · simp only [mapGet, if_neg hk] at h
      simp [ih h]

theorem mem_mapSet_ne {β : Type} {m : List (EventName × β)} {k : EventName} {v : β}
    {p : EventName × β} (h : p ∈ mapSet m k v) (hne : p.1 ≠ k) : p ∈ m := by
  induction m with
  | nil =>
    simp [mapSet] at h
    rw [h] at hne
    exact absurd rfl hne
  | cons q r ih =>
    obtain ⟨k2, v2⟩ := q
    by_cases hk : k2 = k
    · simp only [mapSet, if_pos hk] at h
      rcases List.mem_cons.mp h with hc | hm
      · rw [hc] at hne; exact absurd rfl hne
      · exact List.mem_cons_of_mem _ hm
    · simp only [mapSet, if_neg hk] at h
      rcases List.mem_cons.mp h with hc | hm
      · exact hc ▸ List.mem_cons_self _ _
      · exact List.mem_cons_of_mem _ (ih hm)

theorem mem_mapSet_self_eq {β : Type} {m : List (EventName × β)} {k : EventName} {v : β}
    {p : EventName × β} (hnd : (mapKeys m).Nodup) (h : p ∈ mapSet m k v)
    (hk : p.1 = k) : p = (k, v) := by
  induction m with
  | nil =>
    simp [mapSet] at h
    exact h
  | cons q r ih =>
    obtain ⟨k2, v2⟩ := q
    simp only [mapKeys, List.map_cons, List.nodup_cons] at hnd
    by_cases hk2 : k2 = k
    · subst hk2
      simp only [mapSet, if_pos rfl] at h
      rcases List.mem_cons.mp h with hc | hm
      · exact hc
      · exfalso
        apply hnd.1
        have : p.1 ∈ mapKeys r := List.mem_map_of_mem Prod.fst hm
        rw [hk] at this
        exact this
    · simp only [mapSet, if_neg hk2] at h
      rcases List.mem_cons.mp h with hc | hm
      · exfalso
        rw [hc] at hk
        exact hk2 hk
      · exact ih hnd.2 hm

theorem mem_mapDelete_of_nodup {β : Type} {m : List (EventName × β)} {k : EventName}
    {p : EventName × β} (hnd : (mapKeys m).Nodup) (h : p ∈ mapDelete m k) :
    p ∈ m ∧ p.1 ≠ k := by
  induction m with
  | nil => simp [mapDelete] at h
  | cons q r ih =>
    obtain ⟨k2, v2⟩ := q
    simp only [mapKeys, List.map_cons, List.nodup_cons] at hnd
    by_cases hk2 : k2 = k
    · subst hk2
      simp only [mapDelete, if_pos rfl] at h
      refine ⟨List.mem_cons_of_mem _ h, ?_⟩
      intro hc
      apply hnd.1
      have : p.1 ∈ mapKeys r := List.mem_map_of_mem Prod.fst h
      rw [hc] at this
      exact this
    · simp only [mapDelete, if_neg hk2] at h
      rcases List.mem_cons.mp h with hc | hm
      · refine ⟨hc ▸ List.mem_cons_self _ _, ?_⟩
        rw [hc]
        exact hk2
      · obtain ⟨hm2, hne⟩ := ih hnd.2 hm
        exact ⟨List.mem_cons_of_mem _ hm2, hne⟩

theorem lmapHas_iff_mem {β : Type} (m : List (ListenerId × β)) (k : ListenerId) :
    lmapHas m k = true ↔ k ∈ m.map Prod.fst := by
  induction m with
  | nil => simp [lmapHas, lmapGet]
  | cons p r ih =>
    obtain ⟨k2, v⟩ := p
    by_cases hk : k2 = k
    · subst hk; simp [lmapHas, lmapGet]
    · simp only [lmapHas, lmapGet, hk, if_false, List.map_cons, List.mem_cons] at ih ⊢
      rw [ih]
      constructor
      · exact Or.inr
      · rintro (hc | hm)
        · exact absurd hc.symm hk
        · exact hm

theorem lmapKeys_lmapSet_of_not_has {β : Type} (m : List (ListenerId × β))
    (k : ListenerId) (v : β) (h : lmapHas m k = false) :
    (lmapSet m k v).map Prod.fst = m.map Prod.fst ++ [k] := by
  induction m with
  | nil => simp [lmapSet]
  | cons p r ih =>
    obtain ⟨k2, v2⟩ := p
    by_cases hk : k2 = k
    · subst hk; simp [lmapHas, lmapGet] at h
    · simp only [lmapHas, lmapGet, hk, if_false] at h
      simp only [lmapSet, if_neg hk, List.map_cons, List.cons_append, List.cons.injEq]
      exact ⟨trivial, ih h⟩

theorem nodup_erase_eq_filter {l : List ListenerId} (f : ListenerId)
    (hnd : l.Nodup) : l.erase f = l.filter (fun x => x ≠ f) := by
  induction l with
  | nil => rfl
  | cons a r ih =>
    rw [List.nodup_cons] at hnd
    obtain ⟨h1, h2⟩ := hnd
    by_cases ha : a = f
    · rw [ha] at h1 ⊢
      rw [List.erase_cons_head, List.filter_cons]
      have hself : r.filter (fun x => !decide (x = f)) = r := by
        apply List.filter_eq_self.mpr
        intro x hx
        simp only [Bool.not_eq_true', decide_eq_false_iff_not]
        intro hc
        rw [hc] at hx
        exact h1 hx
      simp [hself]
    · rw [List.erase_cons_tail (by simp [ha]), List.filter_cons]
      simp [ha, ih h2]

theorem invB_iff_invP (s : EventEmitter) : invB s = true ↔ invP s := by
  rw [invB, invP]
  simp only [Bool.and_eq_true, List.all_eq_true, decide_eq_true_eq]
  constructor
  · rintro ⟨⟨⟨h1, h2⟩, h3⟩, h4⟩
    refine ⟨h1, h2, h3, ?_⟩
    intro p hp
    obtain ⟨ha, hb⟩ := h4 p hp
    refine ⟨ha, ?_, ?_⟩
    · intro mm hmm
      rw [hmm] at hb
      simpa using hb
    · intro hmm
      rw [hmm] at hb
      simpa using hb
  · rintro ⟨h1, h2, h3, h4⟩
    refine ⟨⟨⟨h1, h2⟩, h3⟩, ?_⟩
    intro p hp
    obtain ⟨ha, hb, hc⟩ := h4 p hp
    refine ⟨ha, ?_⟩
    rcases hmm : mapGet s.listenerMeta p.1 with _ | mm
    · simpa using hc hmm
    · simpa using hb mm hmm

theorem mapHas_mapSet_self {β : Type} (m : List (EventName × β)) (k : EventName) (v : β) :
    mapHas (mapSet m k v) k = true := by
  simp [mapHas, mapGet_mapSet_self]

theorem mapHas_mapSet_mono {β : Type} {m : List (EventName × β)} {k k2 : EventName}
    (v : β) (h : mapHas m k2 = true) : mapHas (mapSet m k v) k2 = true := by
  by_cases hk : k2 = k
  · subst hk; exact mapHas_mapSet_self m k2 v
  · rw [mapHas, mapGet_mapSet_ne m k k2 v hk]
    exact h

theorem mapSet_of_not_has {β : Type} {m : List (EventName × β)} {k : EventName}
    (v : β) (h : mapHas m k = false) : mapSet m k v = m ++ [(k, v)] := by
  induction m with
  | nil => rfl
  | cons p r ih =>
    obtain ⟨k2, v2⟩ := p
    by_cases hk : k2 = k
    · subst hk; simp [mapHas, mapGet] at h
    · simp only [mapHas, mapGet, hk, if_false] at h
      simp only [mapSet, if_neg hk, List.cons_append, List.cons.injEq]
      exact ⟨trivial, ih h⟩

theorem sdHas_false_not_mem {sd : SetData} {f : ListenerId}
    (h : sdHas sd f = false) : f ∉ sdElems sd := by
  intro hm
  rw [sdHas_iff_mem.mpr hm] at h
  exact Bool.noConfusion h

theorem sdElems_sdAdd_not_has {sd : SetData} {f : ListenerId}
    (h : sdHas sd f = false) : sdElems (sdAdd sd f) = sdElems sd ++ [f] := by
  rw [sdAdd, if_neg (by rw [h]; exact Bool.noConfusion), sdElems_append]
  rfl

theorem mapHas_false_not_mem {β : Type} {m : List (EventName × β)} {k : EventName}
    (h : mapHas m k = false) : k ∉ mapKeys m := by
  intro hm
  rw [(mapHas_iff_mem m k).mpr hm] at h
  exact Bool.noConfusion h

theorem mapGet_none_not_mem {β : Type} {m : List (EventName × β)} {k : EventName}
    (h : mapGet m k = none) : k ∉ mapKeys m := by
  apply mapHas_false_not_mem
  simp [mapHas, h]

/-- Creating an empty listener set for a fresh event preserves the
invariant (this is the state a failed `addEventListener` leaves behind). -/
theorem invP_create (s : EventEmitter) (e : EventName) (hInv : invP s)
    (hHas : mapHas s.listeners e = false) :
    invP { s with listeners := mapSet s.listeners e [] } := by
  obtain ⟨h1, h2, h3, h4⟩ := hInv
  have hset := mapSet_of_not_has ([] : SetData) hHas
  refine ⟨?_, h2, ?_, ?_⟩
  · rw [mapKeys_mapSet_of_not_has _ _ _ hHas]
    refine List.Nodup.append h1 (List.nodup_singleton e) ?_
    intro a ha hb
    simp at hb
    subst hb
    exact mapHas_false_not_mem hHas ha
  · intro k hk
    exact mapHas_mapSet_mono _ (h3 k hk)
  · intro p hp
    simp only at hp
    rw [hset] at hp
    rcases List.mem_append.mp hp with hm | hm
    · exact h4 p hm
    · rw [List.mem_singleton] at hm
      subst hm
      refine ⟨by simp [sdElems], ?_, ?_⟩
      · intro mm hmm
        exfalso
        have hk : e ∈ mapKeys s.listenerMeta :=
          List.mem_map_of_mem Prod.fst (mapGet_mem hmm)
        rw [h3 e hk] at hHas
        exact Bool.noConfusion hHas
      · intro _
        simp [sdElems]

/-- A successful registration with an existing meta entry preserves the
invariant. -/
theorem invP_add_some (t : EventEmitter) (e : EventName) (f : ListenerId)
    (opts : Option ListenerOptions) (sd : SetData)
    (mm : List (ListenerId × EventListenerMeta))
    (hInv : invP t) (hG : mapGet t.listeners e = some sd) (hnot : sdHas sd f = false)
    (hmm : mapGet t.listenerMeta e = some mm) :
    invP { t with listeners := mapSet t.listeners e (sdAdd sd f),
                  listenerMeta := mapSet t.listenerMeta e (lmapSet mm f ⟨opts⟩) } := by
  obtain ⟨h1, h2, h3, h4⟩ := hInv
  have hHasL : mapHas t.listeners e = true := by simp [mapHas, hG]
  have hHasM : mapHas t.listenerMeta e = true := by simp [mapHas, hmm]
  have hentry := h4 (e, sd) (mapGet_mem hG)
  have hkeysEq : mm.map Prod.fst = sdElems sd := hentry.2.1 mm hmm
  have hfnotmem : f ∉ sdElems sd := sdHas_false_not_mem hnot
  have hlmapnot : lmapHas mm f = false := by
    rw [Bool.eq_false_iff]
    intro hc
    have hmem := (lmapHas_iff_mem mm f).mp hc
    rw [hkeysEq] at hmem
    exact hfnotmem hmem
  refine ⟨?_, ?_, ?_, ?_⟩
  · rw [mapKeys_mapSet_of_has _ _ _ hHasL]
    exact h1
  · rw [mapKeys_mapSet_of_has _ _ _ hHasM]
    exact h2
  · intro k hk
    rw [mapKeys_mapSet_of_has _ _ _ hHasM] at hk
    exact mapHas_mapSet_mono _ (h3 k hk)
  · intro p hp
    simp only at hp ⊢
    by_cases hpe : p.1 = e
    · have hpeq := mem_mapSet_self_eq h1 hp hpe
      subst hpeq
      have helems : sdElems (sdAdd sd f) = sdElems sd ++ [f] := sdElems_sdAdd_not_has hnot
      refine ⟨?_, ?_, ?_⟩
      · rw [helems]
        refine List.Nodup.append hentry.1 (List.nodup_singleton f) ?_
        intro a ha hb
        simp at hb
        subst hb
        exact hfnotmem ha
      · intro mm2 hmm2
        rw [mapGet_mapSet_self] at hmm2
        cases hmm2
        rw [lmapKeys_lmapSet_of_not_has mm f ⟨opts⟩ hlmapnot, hkeysEq, helems]
      · intro hnone
        rw [mapGet_mapSet_self] at hnone
        exact Option.noConfusion hnone
    · have hpmem := mem_mapSet_ne hp hpe
      have hold := h4 p hpmem
      refine ⟨hold.1, ?_, ?_⟩
      · intro mm2 hmm2
        rw [mapGet_mapSet_ne _ _ _ _ hpe] at hmm2
        exact hold.2.1 mm2 hmm2
      · intro hnone
        rw [mapGet_mapSet_ne _ _ _ _ hpe] at hnone
        exact hold.2.2 hnone

/-- A successful registration with no existing meta entry preserves the
invariant. -/
theorem invP_add_none (t : EventEmitter) (e : EventName) (f : ListenerId)
    (opts : Option ListenerOptions) (sd : SetData)
    (hInv : invP t) (hG : mapGet t.listeners e = some sd) (hnot : sdHas sd f = false)
    (hmm : mapGet t.listenerMeta e = none) :
    invP { t with listeners := mapSet t.listeners e (sdAdd sd f),
                  listenerMeta := mapSet t.listenerMeta e (lmapSet [] f ⟨opts⟩) } := by
  obtain ⟨h1, h2, h3, h4⟩ := hInv
  have hHasL : mapHas t.listeners e = true := by simp [mapHas, hG]
  have hHasM : mapHas t.listenerMeta e = false := by simp [mapHas, hmm]
  have hentry := h4 (e, sd) (mapGet_mem hG)
  have hemp : sdElems sd = [] := hentry.2.2 hmm
  have helems : sdElems (sdAdd sd f) = [f] := by
    rw [sdElems_sdAdd_not_has hnot, hemp]
    rfl
  refine ⟨?_, ?_, ?_, ?_⟩
  · rw [mapKeys_mapSet_of_has _ _ _ hHasL]
    exact h1
  · rw [mapKeys_mapSet_of_not_has _ _ _ hHasM]
    refine List.Nodup.append h2 (List.nodup_singleton e) ?_
    intro a ha hb
    simp at hb
    subst hb
    exact mapGet_none_not_mem hmm ha
  · intro k hk
    rw [mapKeys_mapSet_of_not_has _ _ _ hHasM] at hk
    rcases List.mem_append.mp hk with hm | hm
    · exact mapHas_mapSet_mono _ (h3 k hm)
    · rw [List.mem_singleton] at hm
      subst hm
      exact mapHas_mapSet_self _ _ _
  · intro p hp
    simp only at hp ⊢
    by_cases hpe : p.1 = e
    · have hpeq := mem_mapSet_self_eq h1 hp hpe
      subst hpeq
      refine ⟨by rw [helems]; exact List.nodup_singleton f, ?_, ?_⟩
      · intro mm2 hmm2
        rw [mapGet_mapSet_self] at hmm2
        cases hmm2
        rw [helems]
        rfl
      · intro hnone
        rw [mapGet_mapSet_self] at hnone
        exact Option.noConfusion hnone
    · have hpmem := mem_mapSet_ne hp hpe
      have hold := h4 p hpmem
      refine ⟨hold.1, ?_, ?_⟩
      · intro mm2 hmm2
        rw [mapGet_mapSet_ne _ _ _ _ hpe] at hmm2
        exact hold.2.1 mm2 hmm2
      · intro hnone
        rw [mapGet_mapSet_ne _ _ _ _ hpe] at hnone
        exact hold.2.2 hnone

/-- Under the invariant, an event absent from the listeners map is absent
from the meta map. -/
theorem invP_meta_none_of_listeners_none (t : EventEmitter) (e : EventName)
    (hInv : invP t) (h : mapGet t.listeners e = none) :
    mapGet t.listenerMeta e = none := by
  obtain ⟨_, _, h3, _⟩ := hInv
  rcases hmm : mapGet t.listenerMeta e with _ | mm
  · rfl
  · exfalso
    have hk : e ∈ mapKeys t.listenerMeta :=
      List.mem_map_of_mem Prod.fst (mapGet_mem hmm)
    have hc := h3 e hk
    rw [mapHas, h] at hc
    exact Bool.noConfusion hc

/-- The commit of `removeEventListener` preserves the invariant (meta
entry present). -/
theorem invP_remove_some_some (t : EventEmitter) (e : EventName) (f : ListenerId)
    (sd1 : SetData) (mm : List (ListenerId × EventListenerMeta))
    (hInv : invP t) (hG : mapGet t.listeners e = some sd1)
    (hmm : mapGet t.listenerMeta e = some mm) :
    invP { t with listeners := mapSet t.listeners e (sdDelete sd1 f),
                  listenerMeta := mapSet t.listenerMeta e (lmapDelete mm f) } := by
  obtain ⟨h1, h2, h3, h4⟩ := hInv
  have hHasL : mapHas t.listeners e = true := by simp [mapHas, hG]
  have hHasM : mapHas t.listenerMeta e = true := by simp [mapHas, hmm]
  have hentry := h4 (e, sd1) (mapGet_mem hG)
  have hkeysEq : mm.map Prod.fst = sdElems sd1 := hentry.2.1 mm hmm
  refine ⟨?_, ?_, ?_, ?_⟩
  · rw [mapKeys_mapSet_of_has _ _ _ hHasL]
    exact h1
  · rw [mapKeys_mapSet_of_has _ _ _ hHasM]
    exact h2
  · intro k hk
    rw [mapKeys_mapSet_of_has _ _ _ hHasM] at hk
    exact mapHas_mapSet_mono _ (h3 k hk)
  · intro p hp
    simp only at hp ⊢
    by_cases hpe : p.1 = e
    · have hpeq := mem_mapSet_self_eq h1 hp hpe
      subst hpeq
      refine ⟨?_, ?_, ?_⟩
      · rw [sdElems_sdDelete]
        exact hentry.1.filter _
      · intro mm2 hmm2
        rw [mapGet_mapSet_self] at hmm2
        cases hmm2
        rw [lmapKeys_lmapDelete, hkeysEq,
          nodup_erase_eq_filter f hentry.1, sdElems_sdDelete]
      · intro hnone
        rw [mapGet_mapSet_self] at hnone
        exact Option.noConfusion hnone
    · have hpmem := mem_mapSet_ne hp hpe
      have hold := h4 p hpmem
      refine ⟨hold.1, ?_, ?_⟩
      · intro mm2 hmm2
        rw [mapGet_mapSet_ne _ _ _ _ hpe] at hmm2
        exact hold.2.1 mm2 hmm2
      · intro hnone
        rw [mapGet_mapSet_ne _ _ _ _ hpe] at hnone
        exact hold.2.2 hnone

/-- The commit of `removeEventListener` preserves the invariant (no meta
entry: the set was already empty and stays empty). -/
theorem invP_remove_some_none (t : EventEmitter) (e : EventName) (f : ListenerId)
    (sd1 : SetData)
    (hInv : invP t) (hG : mapGet t.listeners e = some sd1)
    (hmm : mapGet t.listenerMeta e = none) :
    invP { t with listeners := mapSet t.listeners e (sdDelete sd1 f) } := by
  obtain ⟨h1, h2, h3, h4⟩ := hInv
  have hHasL : mapHas t.listeners e = true := by simp [mapHas, hG]
  have hentry := h4 (e, sd1) (mapGet_mem hG)
  have hemp : sdElems sd1 = [] := hentry.2.2 hmm
  refine ⟨?_, h2, ?_, ?_⟩
  · rw [mapKeys_mapSet_of_has _ _ _ hHasL]
    exact h1
  · intro k hk
    exact mapHas_mapSet_mono _ (h3 k hk)
  · intro p hp
    simp only at hp ⊢
    by_cases hpe : p.1 = e
    · have hpeq := mem_mapSet_self_eq h1 hp hpe
      subst hpeq
      have hdel : sdElems (sdDelete sd1 f) = [] := by
        rw [sdElems_sdDelete, hemp]
        rfl
      refine ⟨by rw [hdel]; exact List.nodup_nil, ?_, ?_⟩
      · intro mm2 hmm2
        rw [hmm] at hmm2
        exact Option.noConfusion hmm2
      · intro _
        exact hdel
    · have hpmem := mem_mapSet_ne hp hpe
      exact h4 p hpmem

/-- Tearing an event out of both maps preserves the invariant. -/
theorem invP_deleteBoth (t : EventEmitter) (e : EventName) (hInv : invP t) :
    invP (deleteBoth t e) := by
  obtain ⟨h1, h2, h3, h4⟩ := hInv
  refine ⟨?_, ?_, ?_, ?_⟩
  · rw [deleteBoth]
    simp only
    rw [mapKeys_mapDelete]
    exact h1.erase e
  · rw [deleteBoth]
    simp only
    rw [mapKeys_mapDelete]
    exact h2.erase e
  · intro k hk
    rw [deleteBoth] at hk ⊢
    simp only at hk ⊢
    rw [mapKeys_mapDelete] at hk
    have hk2 := (List.Nodup.mem_erase_iff h2).mp hk
    rw [mapHas, mapGet_mapDelete_ne _ _ _ hk2.1]
    exact h3 k hk2.2
  · intro p hp
    rw [deleteBoth] at hp ⊢
    simp only at hp ⊢
    obtain ⟨hpm, hpe⟩ := mem_mapDelete_of_nodup h1 hp
    have hold := h4 p hpm
    refine ⟨hold.1, ?_, ?_⟩
    · intro mm2 hmm2
      rw [mapGet_mapDelete_ne _ _ _ hpe] at hmm2
      exact hold.2.1 mm2 hmm2
    · intro hnone
      rw [mapGet_mapDelete_ne _ _ _ hpe] at hnone
      exact hold.2.2 hnone

/-- Helper: read an invariant fact through an interpreter-run equation. -/
theorem invP_of_run (β : ListenerId → List Action) (fuel : Nat) {req : Req}
    {s : EventEmitter} {o : Outcome} {t : EventEmitter} {w : List TraceEv}
    (h : exec β fuel req s = (o, t, w))
    (ih : ∀ (req : Req) (s : EventEmitter), invP s → invP (exec β fuel req s).2.1)
    (hs : invP s) : invP t := by
  have h0 := ih req s hs
  rw [h] at h0
  exact h0

/-- The lockstep invariant is preserved by every operation of the
interpreter, for every listener behaviour environment, including the
operations that throw. -/
theorem invP_exec (β : ListenerId → List Action) (fuel : Nat) :
    ∀ (req : Req) (s : EventEmitter), invP s → invP (exec β fuel req s).2.1 := by
  induction fuel with
  | zero => intro req s h; exact h
  | succ fuel ih =>
    intro req s hInv
    rw [exec_succ]
    cases req with
    | add e f opts =>
      by_cases hHas : mapHas s.listeners e = true
      · obtain ⟨sd, hG⟩ : ∃ sd, mapGet s.listeners e = some sd := by
          rw [mapHas] at hHas
          exact Option.isSome_iff_exists.mp hHas
        have hsd : sdOf s e = sd := by simp [sdOf, hG]
        by_cases hDup : sdHas sd f = true
        · simpa [execBody, hHas, hsd, hDup] using hInv
        · have hDup2 : sdHas sd f = false := Bool.eq_false_iff.mpr hDup
          by_cases hCap : s.maxListeners ≤ sdSize sd
          · simpa [execBody, hHas, hsd, hDup2, hCap] using hInv
          · rcases hmm : mapGet s.listenerMeta e with _ | mm
            · have hs3 := invP_add_none s e f opts sd hInv hG hDup2 hmm
              rcases hr : exec β fuel
                  (.emitR "newListener" [.vStr e, .vNat f, .vOpt opts])
                  { s with listeners := mapSet s.listeners e (sdAdd sd f),
                           listenerMeta := mapSet s.listenerMeta e (lmapSet [] f ⟨opts⟩) }
                with ⟨o, t, w⟩
              have ht := invP_of_run β fuel hr ih hs3
              cases o <;> simpa [execBody, hHas, hsd, hDup2, hCap, hmm, hr] using ht
            · have hlmapnot : lmapHas mm f = false := by
                rw [Bool.eq_false_iff]
                intro hc
                have hmem := (lmapHas_iff_mem mm f).mp hc
                have hentry := hInv.2.2.2 (e, sd) (mapGet_mem hG)
                rw [hentry.2.1 mm hmm] at hmem
                exact sdHas_false_not_mem hDup2 hmem
              have hs3 := invP_add_some s e f opts sd mm hInv hG hDup2 hmm
              rcases hr : exec β fuel
                  (.emitR "newListener" [.vStr e, .vNat f, .vOpt opts])
                  { s with listeners := mapSet s.listeners e (sdAdd sd f),
                           listenerMeta := mapSet s.listenerMeta e (lmapSet mm f ⟨opts⟩) }
                with ⟨o, t, w⟩
              have ht := invP_of_run β fuel hr ih hs3
              cases o <;>
                simpa [execBody, hHas, hsd, hDup2, hCap, hmm, hlmapnot, hr] using ht
      · have hHas2 : mapHas s.listeners e = false := Bool.eq_false_iff.mpr hHas
        have hs1 := invP_create s e hInv hHas2
        have hG1 : mapGet (mapSet s.listeners e ([] : SetData)) e = some [] :=
          mapGet_mapSet_self _ _ _
        have hsd : sdOf { s with listeners := mapSet s.listeners e [] } e = [] := by
          simp [sdOf, hG1]
        have hDup2 : sdHas ([] : SetData) f = false := rfl
        by_cases hCap : s.maxListeners ≤ sdSize ([] : SetData)
        · simpa [execBody, hHas2, hsd, hDup2, hCap] using hs1
        · rcases hmm : mapGet s.listenerMeta e with _ | mm
          · have hs3 := invP_add_none _ e f opts [] hs1 hG1 hDup2 (by simpa using hmm)
            rcases hr : exec β fuel
                (.emitR "newListener" [.vStr e, .vNat f, .vOpt opts])
                { s with listeners := mapSet (mapSet s.listeners e []) e (sdAdd [] f),
                         listenerMeta := mapSet s.listenerMeta e (lmapSet [] f ⟨opts⟩) }
              with ⟨o, t, w⟩
            have ht := invP_of_run β fuel hr ih (by simpa using hs3)
            cases o <;> simpa [execBody, hHas2, hsd, hDup2, hCap, hmm, hr] using ht
          · exfalso
            have hk : e ∈ mapKeys s.listenerMeta :=
              List.mem_map_of_mem Prod.fst (mapGet_mem hmm)
            have hc := hInv.2.2.1 e hk
            rw [hHas2] at hc
            exact Bool.noConfusion hc
    | remove e f =>
      rcases hG : mapGet s.listeners e with _ | sd
      · simpa [execBody, hG] using hInv
      · by_cases hHas : sdHas sd f = true
        · rcases hr : exec β fuel (.emitR "removeListener" [.vStr e, .vNat f]) s
            with ⟨o, s1, w⟩
          have hs1 := invP_of_run β fuel hr ih hInv
          cases o with
          | ok v =>
            rcases hG1 : mapGet s1.listeners e with _ | sd1
            · have hmn := invP_meta_none_of_listeners_none s1 e hs1 hG1
              simpa [execBody, hG, hHas, hr, hG1, hmn] using hs1
            · rcases hmm : mapGet s1.listenerMeta e with _ | mm
              · simpa [execBody, hG, hHas, hr, hG1, hmm] using
                  invP_remove_some_none s1 e f sd1 hs1 hG1 hmm
              · simpa [execBody, hG, hHas, hr, hG1, hmm] using
                  invP_remove_some_some s1 e f sd1 mm hs1 hG1 hmm
          | thrown v => simpa [execBody, hG, hHas, hr] using hs1
          | fuelOut => simpa [execBody, hG, hHas, hr] using hs1
        · have hHas2 : sdHas sd f = false := Bool.eq_false_iff.mpr hHas
          simpa [execBody, hG, hHas2] using hInv
    | removeAll e? =>
      by_cases hFal : nameFalsy e? = true
      · rcases hr : exec β fuel (.removeAllKeys (mapKeys s.listeners).reverse) s
          with ⟨o, t, w⟩
        have ht := invP_of_run β fuel hr ih hInv
        cases o <;> simpa [execBody, hFal, hr] using ht
      · rcases e? with _ | e
        · simp [nameFalsy] at hFal
        · rcases hG : mapGet s.listeners e with _ | sd
          · simpa [execBody, hFal, hG] using hInv
          · have hdb := invP_deleteBoth s e hInv
            rcases hr : exec β fuel (.rmNotify e (sdElems sd).reverse) (deleteBoth s e)
              with ⟨o, t, w⟩
            have ht := invP_of_run β fuel hr ih hdb
            simp only [deleteBoth] at hr
            cases o <;> simpa [execBody, hFal, hG, hr] using ht
    | removeAllKeys keys =>
      cases keys with
      | nil => simpa [execBody] using hInv
      | cons k rest =>
        rcases hr1 : exec β fuel (.removeAll (some k)) s with ⟨o1, t1, w1⟩
        have ht1 := invP_of_run β fuel hr1 ih hInv
        cases o1 with
        | ok v =>
          rcases hr2 : exec β fuel (.removeAllKeys rest) t1 with ⟨o2, t2, w2⟩
          have ht2 := invP_of_run β fuel hr2 ih ht1
          simpa [execBody, hr1, hr2] using ht2
        | thrown v => simpa [execBody, hr1] using ht1
        | fuelOut => simpa [execBody, hr1] using ht1
    | rmNotify e ls =>
      cases ls with
      | nil => simpa [execBody] using hInv
      | cons g rest =>
        rcases hr1 : exec β fuel (.emitR "removeListener" [.vStr e, .vNat g]) s
          with ⟨o1, t1, w1⟩
        have ht1 := invP_of_run β fuel hr1 ih hInv
        cases o1 with
        | ok v =>
          rcases hr2 : exec β fuel (.rmNotify e rest) t1 with ⟨o2, t2, w2⟩
          have ht2 := invP_of_run β fuel hr2 ih ht1
          simpa [execBody, hr1, hr2] using ht2
        | thrown v => simpa [execBody, hr1] using ht1
        | fuelOut => simpa [execBody, hr1] using ht1
    | emitR e args =>
      by_cases hHas : mapHas s.listeners e = true
      · rcases hr : exec β fuel (.emitLoopR e args 0) s with ⟨o, t, w⟩
        have ht := invP_of_run β fuel hr ih hInv
        cases o <;> simpa [execBody, hHas, hr] using ht
      · have hHas2 : mapHas s.listeners e = false := Bool.eq_false_iff.mpr hHas
        by_cases hE : e = "error"
        · subst hE
          rcases hh : args.head? with _ | v
          · simpa [execBody, hHas2, hh] using hInv
          · by_cases hv : isError v = true
            · simpa [execBody, hHas2, hh, hv] using hInv
            · simpa [execBody, hHas2, hh, hv] using hInv
        · simpa [execBody, hHas2, hE] using hInv
    | emitLoopR e args c =>
      rcases hg : (sdOf s e)[c]? with _ | og
      · simpa [execBody, hg] using hInv
      · rcases og with _ | f
        · rcases hr : exec β fuel (.emitLoopR e args (c + 1)) s with ⟨o, t, w⟩
          have ht := invP_of_run β fuel hr ih hInv
          simpa [execBody, hg, hr] using ht
        · rcases hr1 : exec β fuel (.script (β f)) s with ⟨o1, t1, w1⟩
          have ht1 := invP_of_run β fuel hr1 ih hInv
          cases o1 with
          | fuelOut => simpa [execBody, hg, hr1] using ht1
          | ok v =>
            by_cases ho : onceFlag t1 e f = true
            · rcases hr2 : exec β fuel (.remove e f) t1 with ⟨o2, t2, w2⟩
              have ht2 := invP_of_run β fuel hr2 ih ht1
              cases o2 with
              | ok v2 =>
                rcases hr3 : exec β fuel (.emitLoopR e args (c + 1)) t2 with ⟨o3, t3, w3⟩
                have ht3 := invP_of_run β fuel hr3 ih ht2
                simpa [execBody, hg, hr1, ho, hr2, hr3] using ht3
              | thrown v2 => simpa [execBody, hg, hr1, ho, hr2] using ht2
              | fuelOut => simpa [execBody, hg, hr1, ho, hr2] using ht2
            · have ho2 : onceFlag t1 e f = false := Bool.eq_false_iff.mpr ho
              rcases hr3 : exec β fuel (.emitLoopR e args (c + 1)) t1 with ⟨o3, t3, w3⟩
              have ht3 := invP_of_run β fuel hr3 ih ht1
              simpa [execBody, hg, hr1, ho2, hr3] using ht3
          | thrown v =>
            rcases hr2 : exec β fuel (.emitR "error" [v]) t1 with ⟨o2, t2, w2⟩
            have ht2 := invP_of_run β fuel hr2 ih ht1
            cases o2 with
            | fuelOut => simpa [execBody, hg, hr1, hr2] using ht2
            | ok v2 =>
              by_cases ho : onceFlag t2 e f = true
              · rcases hr3 : exec β fuel (.remove e f) t2 with ⟨o3, t3, w3⟩
                have ht3 := invP_of_run β fuel hr3 ih ht2
                cases o3 with
                | ok v3 =>
                  rcases hr4 : exec β fuel (.emitLoopR e args (c + 1)) t3 with ⟨o4, t4, w4⟩
                  have ht4 := invP_of_run β fuel hr4 ih ht3
                  simpa [execBody, hg, hr1, hr2, ho, hr3, hr4] using ht4
                | thrown v3 => simpa [execBody, hg, hr1, hr2, ho, hr3] using ht3
                | fuelOut => simpa [execBody, hg, hr1, hr2, ho, hr3] using ht3
              · have ho2 : onceFlag t2 e f = false := Bool.eq_false_iff.mpr ho
                rcases hr4 : exec β fuel (.emitLoopR e args (c + 1)) t2 with ⟨o4, t4, w4⟩
                have ht4 := invP_of_run β fuel hr4 ih ht2
                simpa [execBody, hg, hr1, hr2, ho2, hr4] using ht4
            | thrown v2 =>
              by_cases ho : onceFlag t2 e f = true
              · rcases hr3 : exec β fuel (.remove e f) t2 with ⟨o3, t3, w3⟩
                have ht3 := invP_of_run β fuel hr3 ih ht2
                cases o3 <;> simpa [execBody, hg, hr1, hr2, ho, hr3] using ht3
              · have ho2 : onceFlag t2 e f = false := Bool.eq_false_iff.mpr ho
                simpa [execBody, hg, hr1, hr2, ho2] using ht2
    | script acts =>
      cases acts with
      | nil => simpa [execBody] using hInv
      | cons a rest =>
        rcases a with ⟨e2, f2, o2⟩ | ⟨e2, f2⟩ | ⟨e2, vs2⟩ | v2
        · rcases hr1 : exec β fuel (.add e2 f2 o2) s with ⟨o1, t1, w1⟩
          have ht1 := invP_of_run β fuel hr1 ih hInv
          cases o1 with
          | ok v =>
            rcases hr2 : exec β fuel (.script rest) t1 with ⟨o3, t3, w3⟩
            have ht3 := invP_of_run β fuel hr2 ih ht1
            simpa [execBody, hr1, hr2] using ht3
          | thrown v => simpa [execBody, hr1] using ht1
          | fuelOut => simpa [execBody, hr1] using ht1
        · rcases hr1 : exec β fuel (.remove e2 f2) s with ⟨o1, t1, w1⟩
          have ht1 := invP_of_run β fuel hr1 ih hInv
          cases o1 with
          | ok v =>
            rcases hr2 : exec β fuel (.script rest) t1 with ⟨o3, t3, w3⟩
            have ht3 := invP_of_run β fuel hr2 ih ht1
            simpa [execBody, hr1, hr2] using ht3
          | thrown v => simpa [execBody, hr1] using ht1
          | fuelOut => simpa [execBody, hr1] using ht1
        · rcases hr1 : exec β fuel (.emitR e2 vs2) s with ⟨o1, t1, w1⟩
          have ht1 := invP_of_run β fuel hr1 ih hInv
          cases o1 with
          | ok v =>
            rcases hr2 : exec β fuel (.script rest) t1 with ⟨o3, t3, w3⟩
            have ht3 := invP_of_run β fuel hr2 ih ht1
            simpa [execBody, hr1, hr2] using ht3
          | thrown v => simpa [execBody, hr1] using ht1
          | fuelOut => simpa [execBody, hr1] using ht1
        · simpa [execBody] using hInv


/-- `removeAllListeners("")` takes the same falsy branch as
`removeAllListeners()`: the two runs are equal outright, at every fuel,
for every behaviour environment and state. -/
theorem removeAll_empty_eq_noarg (β : ListenerId → List Action) (fuel : Nat)
    (s : EventEmitter) :
    exec β fuel (.removeAll (some "")) s = exec β fuel (.removeAll none) s := by
  cases fuel with
  | zero => rfl
  | succ fuel =>
    rw [exec_succ, exec_succ]
    simp [execBody, nameFalsy]

/-- `listenerCount("", f?)` takes the same falsy branch as
`listenerCount()`: the two runs are equal at every fuel. -/
theorem lcF_empty_eq_noarg (fuel : Nat) (s : EventEmitter)
    (f1 f2 : Option ListenerId) :
    lcF fuel s (.one (some "") f1) = lcF fuel s (.one none f2) := by
  cases fuel with
  | zero => rfl
  | succ fuel => simp [lcF, nameFalsy]

/-- When an event named `""` is registered, `listenerCount("")` recurses
without bound: the summation over `eventNames()` re-enters the falsy
branch at the `""` key, so no fuel suffices (the source overflows the
stack). -/
theorem lcF_empty_key_none (s : EventEmitter)
    (h : "" ∈ mapKeys s.listeners) : ∀ fuel : Nat,
    (∀ f? : Option ListenerId, lcF fuel s (.one (some "") f?) = none) ∧
    (∀ ks : List EventName, "" ∈ ks → lcF fuel s (.sum ks) = none) := by
  intro fuel
  induction fuel with
  | zero => exact ⟨fun _ => rfl, fun _ _ => rfl⟩
  | succ fuel ih =>
    refine ⟨?_, ?_⟩
    · intro f?
      have hsum := ih.2 (eventNames s) (by simpa [eventNames] using h)
      simp [lcF, nameFalsy, hsum]
    · intro ks hks
      cases ks with
      | nil => exact absurd hks (List.not_mem_nil _)
      | cons k rest =>
        rcases List.mem_cons.mp hks with hk | hk
        · have h1 : lcF fuel s (.one (some k) none) = none := by
            rw [← hk]
            exact ih.1 none
          cases h2 : lcF fuel s (.sum rest) <;> simp [lcF, h1, h2]
        · have h2 : lcF fuel s (.sum rest) = none := ih.2 rest hk
          cases h1 : lcF fuel s (.one (some k) none) <;> simp [lcF, h1, h2]


/-- An `emit` entry marker does not count as an invocation. -/
theorem countInvoke_cons_emitCall (e2 : EventName) (a : List Value)
    (tr : List TraceEv) (e : EventName) (f : ListenerId) :
    countInvoke (.emitCall e2 a :: tr) e f = countInvoke tr e f := by
  simp [countInvoke]

/-- C2: corrected.  When the `"error"` key is absent from the listeners
map, `emit("error", …args)` throws: the first argument itself when it is
an `Error` value, and `UnhandledErrorError` otherwise (also when there are
no arguments).  But the claim quantifies over every state in which no
listener is registered for `"error"`, and that is refuted: a state can
hold the `"error"` key with an empty listener set (for example after the
sole `"error"` listener is unregistered), and there `emit("error", …)`
returns `false` and throws nothing. -/
theorem claim_C2 (β : ListenerId → List Action) (fuel : Nat)
    (s : EventEmitter) (args : List Value) :
    (mapHas s.listeners "error" = false →
      (exec β fuel (.emitR "error" args) s).1 ≠ .fuelOut →
      exec β fuel (.emitR "error" args) s =
        (match args.head? with
         | some v => if isError v then .thrown v else .thrown (.vErr .unhandledError)
         | none => .thrown (.vErr .unhandledError), s, [.emitCall "error" args])) ∧
    (∀ sd : SetData, mapGet s.listeners "error" = some sd → sdElems sd = [] →
      (exec β fuel (.emitR "error" args) s).1 ≠ .fuelOut →
      exec β fuel (.emitR "error" args) s =
        (.ok (.vBool false), s, [.emitCall "error" args])) :=
  ⟨fun hA hok => emit_error_absent β fuel s args hA hok,
   fun sd hG hE hok => emit_empty_set β fuel s "error" args sd hG hE hok⟩

/-- C2 witness: on a fresh emitter, `emit("error", err)` re-throws `err`. -/
theorem claim_C2_witness :
    mapHas emptyEmitter.listeners "error" = false ∧
    exec betaEmpty 30 (.emitR "error" [.vErr (.userErr 0)]) emptyEmitter =
      (.thrown (.vErr (.userErr 0)), emptyEmitter,
       [.emitCall "error" [.vErr (.userErr 0)]]) := by
  refine ⟨by decide, ?_⟩
  have h := (claim_C2 betaEmpty 30 emptyEmitter [.vErr (.userErr 0)]).1
    (by decide) (by decide)
  simpa using h

/-- C2 counterexample: after the sole `"error"` listener is unregistered
no listener is registered for `"error"`, yet `emit("error", "boom")`
returns `false` instead of throwing. -/
theorem claim_C2_counterexample :
    sdElems (sdOf stateC2 "error") = [] ∧
    (exec betaEmpty 30 (.emitR "error" [.vStr "boom"]) stateC2).1 =
      .ok (.vBool false) := by
  decide

/-- C3: corrected.  `eventNames()` returns the keys of the listeners map
in first-registration order, and `removeEventListener` (successful or
not) never deletes a key, so an event every listener of which was removed
one-by-one still appears in `eventNames()` with an empty set — refuting
"exactly the event names that currently have at least one registered
listener".  Only `removeAllListeners` deletes a key, erasing it from
`eventNames()`. -/
theorem claim_C3 :
    (∀ s : EventEmitter, eventNames s = mapKeys s.listeners) ∧
    (∀ (β : ListenerId → List Action) (fuel : Nat) (s : EventEmitter)
       (e : EventName) (f : ListenerId) (sd : SetData),
      mapHas s.listeners "removeListener" = false →
      mapGet s.listeners e = some sd →
      sdHas sd f = true →
      (exec β fuel (.remove e f) s).1 ≠ .fuelOut →
      eventNames (exec β fuel (.remove e f) s).2.1 = eventNames s) ∧
    (∀ (β : ListenerId → List Action) (fuel : Nat) (s : EventEmitter)
       (e : EventName) (sd : SetData),
      mapHas s.listeners "removeListener" = false →
      e ≠ "" →
      mapGet s.listeners e = some sd →
      (exec β fuel (.removeAll (some e)) s).1 ≠ .fuelOut →
      eventNames (exec β fuel (.removeAll (some e)) s).2.1 =
        (eventNames s).erase e) := by
  refine ⟨fun s => rfl, ?_, ?_⟩
  · intro β fuel s e f sd hrm hG hHas hok
    rw [remove_char β fuel s e f sd hrm hG hHas hok]
    exact mapKeys_removeCommit s e f sd hG
  · intro β fuel s e sd hrm hne hG hok
    rw [removeAllSingle_char β fuel s e sd hrm hne hG hok]
    show mapKeys (mapDelete s.listeners e) = _
    exact mapKeys_mapDelete s.listeners e

/-- C3 witness: unregistering the only listener of `"a"` keeps `"a"` in
`eventNames()`. -/
theorem claim_C3_witness :
    mapGet stateA.listeners "a" = some [some 1] ∧
    eventNames (exec betaEmpty 30 (.remove "a" 1) stateA).2.1 = eventNames stateA :=
  ⟨by decide,
   claim_C3.2.1 betaEmpty 30 stateA "a" 1 [some 1]
     (by decide) (by decide) (by decide) (by decide)⟩

/-- C3 counterexample: after `removeEventListener("a", f)` removed the
only listener of `"a"`, `eventNames()` still reports `"a"` although its
listener set is empty. -/
theorem claim_C3_counterexample :
    eventNames stateC3 = ["a"] ∧ sdElems (sdOf stateC3 "a") = [] := by
  decide

/-- C4: corrected.  The claimed two-way lockstep is refuted: a failed
registration leaves a listeners-map key with no meta-map key.  What every
operation (including the failing ones) does preserve is the one-sided
invariant `invB`: meta keys are a subset of listener keys, a present meta
entry holds exactly the listener keys of its event, and a missing meta
entry forces an empty listener set. -/
theorem claim_C4 (β : ListenerId → List Action) (fuel : Nat) (req : Req)
    (s : EventEmitter) (h : invB s = true) :
    invB (exec β fuel req s).2.1 = true :=
  (invB_iff_invP _).mpr (invP_exec β fuel req s ((invB_iff_invP s).mp h))

/-- C4 witness: the invariant holds of a fresh emitter and is preserved
by a concrete registration. -/
theorem claim_C4_witness :
    invB emptyEmitter = true ∧
    invB (exec betaEmpty 30 (.add "a" 1 none) emptyEmitter).2.1 = true :=
  ⟨by decide, claim_C4 betaEmpty 30 (.add "a" 1 none) emptyEmitter (by decide)⟩

/-- C4 counterexample: with `maxListeners = 0`, the failed registration of
a fresh event leaves `"x"` present in the listeners map but absent from
the meta map — the maps are not in lockstep. -/
theorem claim_C4_counterexample :
    mapHas (exec betaEmpty 30 (.add "x" 1 none) stateMax0).2.1.listeners "x" = true ∧
    mapHas (exec betaEmpty 30 (.add "x" 1 none) stateMax0).2.1.listenerMeta "x" = false := by
  decide

/-- C8: corrected.  `removeAllListeners()` tears every event out of both
maps, processes the keys in reverse first-registration order, fires one
`"removeListener"` notification per removed listener (in reverse
registration order within one event), and leaves the listeners map empty.
But its return value is `keys.length > 0` computed from the *key list*,
not from listener counts: a registry whose every key has an empty
listener set held no listeners at the time of the call, yet the call
returns `true` — refuting "returns true iff at least one event had at
least one registered listener". -/
theorem claim_C8 (β : ListenerId → List Action) (fuel : Nat) (s : EventEmitter)
    (hrm : mapHas s.listeners "removeListener" = false)
    (hnd : (mapKeys s.listeners).Nodup)
    (hne : "" ∉ mapKeys s.listeners)
    (hok : (exec β fuel (.removeAll none) s).1 ≠ .fuelOut) :
    exec β fuel (.removeAll none) s =
      (.ok (.vBool (decide (0 < (mapKeys s.listeners).reverse.length))),
       ((mapKeys s.listeners).reverse).foldl deleteBoth s,
       ((mapKeys s.listeners).reverse).flatMap (rmCallsOf s)) ∧
    (((mapKeys s.listeners).reverse).foldl deleteBoth s).listeners = [] :=
  removeAll_noarg_char β fuel s hrm hnd hne hok

/-- C8 witness: on the two-listener registry for `"hit"`,
`removeAllListeners()` returns `true`, empties the listeners map, and
fires the per-listener notifications. -/
theorem claim_C8_witness :
    mapHas stateC7.listeners "removeListener" = false ∧
    (exec betaEmpty 30 (.removeAll none) stateC7 =
      (.ok (.vBool (decide (0 < (mapKeys stateC7.listeners).reverse.length))),
       ((mapKeys stateC7.listeners).reverse).foldl deleteBoth stateC7,
       ((mapKeys stateC7.listeners).reverse).flatMap (rmCallsOf stateC7)) ∧
     (((mapKeys stateC7.listeners).reverse).foldl deleteBoth stateC7).listeners = []) :=
  ⟨by decide, claim_C8 betaEmpty 30 stateC7 (by decide) (by decide) (by decide) (by decide)⟩

/-- C8 counterexample: a registry holding a single orphan key (zero
listeners in total) still gets `true` from `removeAllListeners()`. -/
theorem claim_C8_counterexample :
    totalListeners stateC3 = 0 ∧
    (exec betaEmpty 30 (.removeAll none) stateC3).1 = .ok (.vBool true) := by
  decide

/-- C9: confirmed.  With `maxListeners = 0` (so any fresh registration
fails) and an event name with no prior entry, the failed
`addEventListener` call leaves behind the empty listener set it created
before checking the cap: afterwards `eventNames()` contains the event
while `listenerCount(event)` is `0` — the error path is not atomic. -/
theorem claim_C9 (β : ListenerId → List Action) (fuel : Nat) (s : EventEmitter)
    (e : EventName) (f : ListenerId) (opts : Option ListenerOptions)
    (hmax : s.maxListeners = 0)
    (hHas : mapHas s.listeners e = false)
    (hfuel : 0 < fuel) :
    exec β fuel (.add e f opts) s =
      (.thrown (.vErr .tooManyListeners),
       { s with listeners := mapSet s.listeners e [] }, []) ∧
    e ∈ eventNames { s with listeners := mapSet s.listeners e [] } ∧
    (e ≠ "" → ∀ fuel2 : Nat, 0 < fuel2 →
      lcF fuel2 { s with listeners := mapSet s.listeners e [] }
        (.one (some e) none) = some 0) := by
  refine ⟨?_, ?_, ?_⟩
  · cases fuel with
    | zero => exact absurd hfuel (Nat.lt_irrefl 0)
    | succ fuel =>
      rw [exec_succ]
      simp [execBody, hHas, sdOf, mapGet_mapSet_self, sdHas, hmax, sdSize, sdElems]
  · show e ∈ mapKeys (mapSet s.listeners e [])
    rw [mapKeys_mapSet_of_not_has s.listeners e [] hHas]
    simp
  · intro hne fuel2 hfuel2
    cases fuel2 with
    | zero => exact absurd hfuel2 (by simp)
    | succ fuel2 =>
      simp [lcF, nameFalsy, hne, mapGet_mapSet_self, sdSize, sdElems]

/-- C9 witness: the non-atomic error path observed on a concrete
registry with the cap set to zero. -/
theorem claim_C9_witness :
    stateMax0.maxListeners = 0 ∧
    (exec betaEmpty 30 (.add "x" 1 none) stateMax0 =
      (.thrown (.vErr .tooManyListeners),
       { stateMax0 with listeners := mapSet stateMax0.listeners "x" [] }, []) ∧
     "x" ∈ eventNames { stateMax0 with listeners := mapSet stateMax0.listeners "x" [] } ∧
     ("x" ≠ "" → ∀ fuel2 : Nat, 0 < fuel2 →
       lcF fuel2 { stateMax0 with listeners := mapSet stateMax0.listeners "x" [] }
         (.one (some "x") none) = some 0)) :=
  ⟨by decide, claim_C9 betaEmpty 30 stateMax0 "x" 1 none (by decide) (by decide) (by decide)⟩

/-- C10: corrected.  The indistinguishability itself holds — both
`removeAllListeners("")` and `listenerCount("")` run the exact no-argument
branch, at every fuel, so neither ever targets an event actually named
`""`.  But the claim that `listenerCount("")` then *returns* the total
listener count is refuted: when an event named `""` is itself registered,
the summation over `eventNames()` re-enters `listenerCount("")` at that
key and recurses without bound, returning nothing at any fuel (the source
overflows the stack). -/
theorem claim_C10 :
    (∀ (β : ListenerId → List Action) (fuel : Nat) (s : EventEmitter),
      exec β fuel (.removeAll (some "")) s = exec β fuel (.removeAll none) s) ∧
    (∀ (fuel : Nat) (s : EventEmitter) (f1 f2 : Option ListenerId),
      lcF fuel s (.one (some "") f1) = lcF fuel s (.one none f2)) ∧
    (∀ (fuel : Nat) (s : EventEmitter),
      "" ∈ mapKeys s.listeners →
      ∀ f2 : Option ListenerId, lcF fuel s (.one (some "") f2) = none) :=
  ⟨removeAll_empty_eq_noarg, lcF_empty_eq_noarg,
   fun fuel s h f2 => (lcF_empty_key_none s h fuel).1 f2⟩

/-- C10 witness: with `""` registered, `listenerCount("")` at fuel 5 is
still running. -/
theorem claim_C10_witness :
    ("" ∈ mapKeys stateEmptyName.listeners) ∧
    lcF 5 stateEmptyName (.one (some "") none) = none :=
  ⟨by decide, claim_C10.2.2 5 stateEmptyName (by decide) none⟩

/-- C10 counterexample: one listener is registered in total, yet
`listenerCount("")` has produced no value by fuel 40 (the claim theorem
shows no fuel suffices). -/
theorem claim_C10_counterexample :
    totalListeners stateEmptyName = 1 ∧
    lcF 40 stateEmptyName (.one (some "") none) = none := by
  decide


/-- C1: corrected.  The claimed start-of-call snapshot is refuted:
`emit` iterates the *live* listener set, so a re-entrant listener can
both hide a not-yet-visited listener from the current `emit` call (by
unregistering it) and inject a new listener into it (by registering
one).  What does hold: when no visited listener re-enters the emitter,
the call invokes exactly the listeners registered at call start, in
registration order. -/
theorem claim_C1 (β : ListenerId → List Action) (hβ : ∀ i, β i = [])
    (fuel : Nat) (s : EventEmitter) (e : EventName) (args : List Value)
    (sd : SetData)
    (hrm : mapHas s.listeners "removeListener" = false)
    (hG : mapGet s.listeners e = some sd)
    (hnd : (sdElems sd).Nodup)
    (hok : (exec β fuel (.emitR e args) s).1 ≠ .fuelOut) :
    (exec β fuel (.emitR e args) s).2.2 =
      .emitCall e args :: loopTrace s e args sd ∧
    ∀ f : ListenerId,
      countInvoke (exec β fuel (.emitR e args) s).2.2 e f =
        (sdElems sd).count f := by
  obtain ⟨s1, sd1, heq, -, -, -, -, -⟩ :=
    emit_char β hβ fuel s e args sd hrm hG hnd hok
  rw [heq]
  refine ⟨rfl, fun f => ?_⟩
  show countInvoke (.emitCall e args :: loopTrace s e args sd) e f = _
  rw [countInvoke_cons_emitCall]
  exact countInvoke_loopTrace s e args f sd

/-- C1 witness: with inert listeners, emitting `"hit"` to the
two-listener registry produces exactly the call-start trace. -/
theorem claim_C1_witness :
    mapGet stateC7.listeners "hit" = some [some 1, some 2] ∧
    (exec betaEmpty 30 (.emitR "hit" [.vNat 0]) stateC7).2.2 =
      .emitCall "hit" [.vNat 0] :: loopTrace stateC7 "hit" [.vNat 0] [some 1, some 2] :=
  ⟨by decide,
   (claim_C1 betaEmpty (fun _ => rfl) 30 stateC7 "hit" [.vNat 0] [some 1, some 2]
     (by decide) (by decide) (by decide) (by decide)).1⟩

/-- C1 counterexample: listener 1 re-entrantly registers listener 3 and
unregisters listener 2 during the emit; the call-start set is `[1, 2]`,
yet the unregistered listener 2 is never invoked while the
newly-registered listener 3 is invoked by the same call. -/
theorem claim_C1_counterexample :
    elemsOf stateC1 "e" = [1, 2] ∧
    countInvoke (exec betaC1 30 (.emitR "e" []) stateC1).2.2 "e" 2 = 0 ∧
    countInvoke (exec betaC1 30 (.emitR "e" []) stateC1).2.2 "e" 3 = 1 := by
  decide

/-- C6: confirmed.  A duplicate registration returns `this`, leaves the
state entirely unchanged (hence listener count and order), fires no
`"newListener"` notification (empty trace), and a subsequent emit of the
event invokes the listener exactly once. -/
theorem claim_C6 (β : ListenerId → List Action) (hβ : ∀ i, β i = [])
    (fuel : Nat) (s : EventEmitter) (e : EventName) (f : ListenerId)
    (opts : Option ListenerOptions) (sd : SetData) (args : List Value)
    (hG : mapGet s.listeners e = some sd)
    (hHas : sdHas sd f = true)
    (hnd : (sdElems sd).Nodup)
    (hrm : mapHas s.listeners "removeListener" = false)
    (hfuel : 0 < fuel)
    (hok : (exec β fuel (.emitR e args) s).1 ≠ .fuelOut) :
    exec β fuel (.add e f opts) s = (.ok .vSelf, s, []) ∧
    countInvoke (exec β fuel (.emitR e args) s).2.2 e f = 1 := by
  constructor
  · cases fuel with
    | zero => exact absurd hfuel (Nat.lt_irrefl 0)
    | succ fuel =>
      rw [exec_succ]
      have hsd : sdOf s e = sd := by simp [sdOf, hG]
      simp [execBody, mapHas, hG, hsd, hHas]
  · obtain ⟨s1, sd1, heq, -, -, -, -, -⟩ :=
      emit_char β hβ fuel s e args sd hrm hG hnd hok
    rw [heq]
    show countInvoke (.emitCall e args :: loopTrace s e args sd) e f = 1
    rw [countInvoke_cons_emitCall, countInvoke_loopTrace]
    exact List.count_eq_one_of_mem hnd (sdHas_iff_mem.mp hHas)

/-- C6 witness: re-registering listener 2 for `"hit"` is a no-op and a
following emit invokes it once. -/
theorem claim_C6_witness :
    mapGet stateC7.listeners "hit" = some [some 1, some 2] ∧
    (exec betaEmpty 30 (.add "hit" 2 none) stateC7 = (.ok .vSelf, stateC7, []) ∧
     countInvoke (exec betaEmpty 30 (.emitR "hit" []) stateC7).2.2 "hit" 2 = 1) :=
  ⟨by decide,
   claim_C6 betaEmpty (fun _ => rfl) 30 stateC7 "hit" 2 none [some 1, some 2] []
     (by decide) (by decide) (by decide) (by decide) (by decide) (by decide)⟩

/-- When the `"newListener"` listener set is empty (or the key absent), the
`"newListener"` dispatch inside `addEventListener` returns `false` and
leaves the state unchanged. -/
theorem newListener_dispatch_false (β : ListenerId → List Action) (fuel : Nat)
    (s3 : EventEmitter) (args : List Value)
    (hg : sdElems (sdOf s3 "newListener") = [])
    (hok : (exec β fuel (.emitR "newListener" args) s3).1 ≠ .fuelOut) :
    exec β fuel (.emitR "newListener" args) s3 =
      (.ok (.vBool false), s3, [.emitCall "newListener" args]) := by
  rcases hG : mapGet s3.listeners "newListener" with _ | sdn
  · exact emit_absent β fuel s3 "newListener" args (by simp [mapHas, hG]) (by decide) hok
  · apply emit_empty_set β fuel s3 "newListener" args sdn hG _ hok
    have h2 : sdOf s3 "newListener" = sdn := by simp [sdOf, hG]
    rw [← h2]
    exact hg

/-- C5: corrected.  When the `"newListener"` dispatch is benign (its
listener set empty and the registered event not `"newListener"` itself),
`addEventListener` throws `TooManyListenersError` exactly when the
listener is new and the event's current count has reached the cap, and a
duplicate registration never throws.  But the unconditional claim is
refuted: the `"newListener"` dispatch runs through the full `emit`
machinery, so a re-entrant `"newListener"` listener can make the
registration of a *below-cap* event throw `TooManyListenersError`
anyway. -/
theorem claim_C5 (β : ListenerId → List Action) (fuel : Nat) (s : EventEmitter)
    (e : EventName) (f : ListenerId) (opts : Option ListenerOptions)
    (hnl : sdElems (sdOf s "newListener") = [])
    (hne : e ≠ "newListener")
    (hok : (exec β fuel (.add e f opts) s).1 ≠ .fuelOut) :
    ((exec β fuel (.add e f opts) s).1 = .thrown (.vErr .tooManyListeners) ↔
      (sdHas (sdOf s e) f = false ∧ s.maxListeners ≤ sdSize (sdOf s e))) ∧
    (sdHas (sdOf s e) f = true →
      (exec β fuel (.add e f opts) s).1 = .ok .vSelf) := by
  cases fuel with
  | zero => exact absurd rfl hok
  | succ fuel =>
    rw [exec_succ] at hok ⊢
    by_cases hHas : mapHas s.listeners e = true
    · by_cases hDup : sdHas (sdOf s e) f = true
      · constructor
        · simp [execBody, hHas, hDup]
        · intro _
          simp [execBody, hHas, hDup]
      · have hDup2 : sdHas (sdOf s e) f = false := Bool.eq_false_iff.mpr hDup
        by_cases hCap : s.maxListeners ≤ sdSize (sdOf s e)
        · constructor
          · simp [execBody, hHas, hDup2, hCap]
          · intro hc
            rw [hDup2] at hc
            exact Bool.noConfusion hc
        · have hsd3 : sdElems (sdOf
              { s with listeners := mapSet s.listeners e (sdAdd (sdOf s e) f) }
              "newListener") = [] := by
            show sdElems ((mapGet (mapSet s.listeners e (sdAdd (sdOf s e) f))
              "newListener").getD []) = []
            rw [mapGet_mapSet_ne s.listeners e "newListener" _ (Ne.symm hne)]
            exact hnl
          rcases hmm : mapGet s.listenerMeta e with _ | mm
          · rcases hr : exec β fuel
                (.emitR "newListener" [.vStr e, .vNat f, .vOpt opts])
                { s with listeners := mapSet s.listeners e (sdAdd (sdOf s e) f),
                         listenerMeta := mapSet s.listenerMeta e (lmapSet [] f ⟨opts⟩) }
              with ⟨o, t, w⟩
            have hof : o ≠ .fuelOut := by
              intro hc
              subst hc
              simp [execBody, hHas, hDup2, hCap, hmm, hr] at hok
            have hsd3c : sdElems (sdOf
                { s with listeners := mapSet s.listeners e (sdAdd (sdOf s e) f),
                         listenerMeta := mapSet s.listenerMeta e (lmapSet [] f ⟨opts⟩) }
                "newListener") = [] := hsd3
            have h5 := newListener_dispatch_false β fuel _ _ hsd3c (by rw [hr]; exact hof)
            rw [hr] at h5
            have ho : o = .ok (.vBool false) := by
              injection h5 with h1 h2
            refine ⟨?_, ?_⟩
            · simp [execBody, hHas, hDup2, hCap, hmm, hr, ho]
            · intro hc
              rw [hDup2] at hc
              exact Bool.noConfusion hc
          · by_cases hlm : lmapHas mm f = true
            · rcases hr : exec β fuel
                  (.emitR "newListener" [.vStr e, .vNat f, .vOpt opts])
                  { s with listeners := mapSet s.listeners e (sdAdd (sdOf s e) f) }
                with ⟨o, t, w⟩
              have hof : o ≠ .fuelOut := by
                intro hc
                subst hc
                simp [execBody, hHas, hDup2, hCap, hmm, hlm, hr] at hok
              have h5 := newListener_dispatch_false β fuel _ _ hsd3 (by rw [hr]; exact hof)
              rw [hr] at h5
              have ho : o = .ok (.vBool false) := by
                injection h5 with h1 h2
              refine ⟨?_, ?_⟩
              · simp [execBody, hHas, hDup2, hCap, hmm, hlm, hr, ho]
              · intro hc
                rw [hDup2] at hc
                exact Bool.noConfusion hc
            · have hlm2 : lmapHas mm f = false := Bool.eq_false_iff.mpr hlm
              rcases hr : exec β fuel
                  (.emitR "newListener" [.vStr e, .vNat f, .vOpt opts])
                  { s with listeners := mapSet s.listeners e (sdAdd (sdOf s e) f),
                           listenerMeta := mapSet s.listenerMeta e (lmapSet mm f ⟨opts⟩) }
                with ⟨o, t, w⟩
              have hof : o ≠ .fuelOut := by
                intro hc
                subst hc
                simp [execBody, hHas, hDup2, hCap, hmm, hlm2, hr] at hok
              have hsd3b : sdElems (sdOf
                  { s with listeners := mapSet s.listeners e (sdAdd (sdOf s e) f),
                           listenerMeta := mapSet s.listenerMeta e (lmapSet mm f ⟨opts⟩) }
                  "newListener") = [] := hsd3
              have h5 := newListener_dispatch_false β fuel _ _ hsd3b (by rw [hr]; exact hof)
              rw [hr] at h5
              have ho : o = .ok (.vBool false) := by
                injection h5 with h1 h2
              refine ⟨?_, ?_⟩
              · simp [execBody, hHas, hDup2, hCap, hmm, hlm2, hr, ho]
              · intro hc
                rw [hDup2] at hc
                exact Bool.noConfusion hc
    · have hHasF : mapHas s.listeners e = false := Bool.eq_false_iff.mpr hHas
      have hGnone : mapGet s.listeners e = none := by
        rcases hq : mapGet s.listeners e with _ | v
        · rfl
        · rw [mapHas, hq] at hHasF
          simp at hHasF
      have hsd0 : sdOf s e = [] := by simp [sdOf, hGnone]
      rw [hsd0]
      by_cases hCap : s.maxListeners ≤ 0
      · constructor
        · have hCap2 : s.maxListeners ≤ sdSize ([] : SetData) := hCap
          simp [execBody, hHasF, sdOf, mapGet_mapSet_self, sdHas, hCap, sdSize, sdElems]
        · intro hc
          simp [sdHas] at hc
      · have hsd3 : sdElems (sdOf
            { s with listeners := mapSet (mapSet s.listeners e []) e (sdAdd [] f) }
            "newListener") = [] := by
          show sdElems ((mapGet (mapSet (mapSet s.listeners e []) e (sdAdd [] f))
            "newListener").getD []) = []
          rw [mapGet_mapSet_ne _ e "newListener" _ (Ne.symm hne),
              mapGet_mapSet_ne _ e "newListener" _ (Ne.symm hne)]
          exact hnl
        rcases hmm : mapGet s.listenerMeta e with _ | mm
        · rcases hr : exec β fuel
              (.emitR "newListener" [.vStr e, .vNat f, .vOpt opts])
              { s with listeners := mapSet (mapSet s.listeners e []) e (sdAdd [] f),
                       listenerMeta := mapSet s.listenerMeta e (lmapSet [] f ⟨opts⟩) }
            with ⟨o, t, w⟩
          have hof : o ≠ .fuelOut := by
            intro hc
            subst hc
            simp [execBody, hHasF, sdOf, mapGet_mapSet_self, sdHas, hCap, sdSize,
              sdElems, hmm, hr] at hok
          have hsd3c : sdElems (sdOf
              { s with listeners := mapSet (mapSet s.listeners e []) e (sdAdd [] f),
                       listenerMeta := mapSet s.listenerMeta e (lmapSet [] f ⟨opts⟩) }
              "newListener") = [] := hsd3
          have h5 := newListener_dispatch_false β fuel _ _ hsd3c (by rw [hr]; exact hof)
          rw [hr] at h5
          have ho : o = .ok (.vBool false) := by
            injection h5 with h1 h2
          refine ⟨?_, ?_⟩
          · simp [execBody, hHasF, sdOf, mapGet_mapSet_self, sdHas, hCap, sdSize,
              sdElems, hmm, hr, ho]
          · intro hc
            simp [sdHas] at hc
        · by_cases hlm : lmapHas mm f = true
          · rcases hr : exec β fuel
                (.emitR "newListener" [.vStr e, .vNat f, .vOpt opts])
                { s with listeners := mapSet (mapSet s.listeners e []) e (sdAdd [] f) }
              with ⟨o, t, w⟩
            have hof : o ≠ .fuelOut := by
              intro hc
              subst hc
              simp [execBody, hHasF, sdOf, mapGet_mapSet_self, sdHas, hCap, sdSize,
                sdElems, hmm, hlm, hr] at hok
            have h5 := newListener_dispatch_false β fuel _ _ hsd3 (by rw [hr]; exact hof)
            rw [hr] at h5
            have ho : o = .ok (.vBool false) := by
              injection h5 with h1 h2
            refine ⟨?_, ?_⟩
            · simp [execBody, hHasF, sdOf, mapGet_mapSet_self, sdHas, hCap, sdSize,
                sdElems, hmm, hlm, hr, ho]
            · intro hc
              simp [sdHas] at hc
          · have hlm2 : lmapHas mm f = false := Bool.eq_false_iff.mpr hlm
            rcases hr : exec β fuel
                (.emitR "newListener" [.vStr e, .vNat f, .vOpt opts])
                { s with listeners := mapSet (mapSet s.listeners e []) e (sdAdd [] f),
                         listenerMeta := mapSet s.listenerMeta e (lmapSet mm f ⟨opts⟩) }
              with ⟨o, t, w⟩
            have hof : o ≠ .fuelOut := by
              intro hc
              subst hc
              simp [execBody, hHasF, sdOf, mapGet_mapSet_self, sdHas, hCap, sdSize,
                sdElems, hmm, hlm2, hr] at hok
            have hsd3b : sdElems (sdOf
                { s with listeners := mapSet (mapSet s.listeners e []) e (sdAdd [] f),
                         listenerMeta := mapSet s.listenerMeta e (lmapSet mm f ⟨opts⟩) }
                "newListener") = [] := hsd3
            have h5 := newListener_dispatch_false β fuel _ _ hsd3b (by rw [hr]; exact hof)
            rw [hr] at h5
            have ho : o = .ok (.vBool false) := by
              injection h5 with h1 h2
            refine ⟨?_, ?_⟩
            · simp [execBody, hHasF, sdOf, mapGet_mapSet_self, sdHas, hCap, sdSize,
                sdElems, hmm, hlm2, hr, ho]
            · intro hc
              simp [sdHas] at hc

/-- C5 witness: with the cap at zero, registering a fresh listener for a
fresh event throws `TooManyListenersError`, matching the cap criterion. -/
theorem claim_C5_witness :
    sdElems (sdOf stateMax0 "newListener") = [] ∧
    ((exec betaEmpty 30 (.add "x" 1 none) stateMax0).1 =
        .thrown (.vErr .tooManyListeners) ↔
      (sdHas (sdOf stateMax0 "x") 1 = false ∧
       stateMax0.maxListeners ≤ sdSize (sdOf stateMax0 "x"))) :=
  ⟨by decide,
   (claim_C5 betaEmpty 30 stateMax0 "x" 1 none (by decide) (by decide) (by decide)).1⟩

/-- C5 counterexample: listener 9 is new for `"evt"` and `"evt"`'s count
(zero) is below the cap (one), yet registration throws
`TooManyListenersError`: the `"newListener"` dispatch re-entrantly
registers an over-cap listener for `"newListener"` and the failure
propagates. -/
theorem claim_C5_counterexample :
    sdHas (sdOf stateC5 "evt") 9 = false ∧
    sdSize (sdOf stateC5 "evt") < stateC5.maxListeners ∧
    (exec betaC5 30 (.add "evt" 9 none) stateC5).1 =
      .thrown (.vErr .tooManyListeners) := by
  decide


/-- A listener body that is a single `throw v` throws `v` and leaves the
state untouched, producing no trace. -/
theorem script_throw_char (β : ListenerId → List Action) (fuel : Nat)
    (s : EventEmitter) (f : ListenerId) (v : Value)
    (hβf : β f = [.throwA v])
    (hok : (exec β fuel (.script (β f)) s).1 ≠ .fuelOut) :
    exec β fuel (.script (β f)) s = (.thrown v, s, []) := by
  cases fuel with
  | zero => exact absurd rfl hok
  | succ fuel =>
    rw [hβf, exec_succ]
    simp [execBody]

/-- The throw path of once-removal, no-`"error"`-handler case: the first
listener of the event throws an `Error` value, the re-emitted error
propagates out of `emit` — but the `finally` clause still unregisters the
`once` listener through the normal remove path, firing its
`"removeListener"` notification after the invocation, and the listener is
gone from the final state. -/
theorem emit_once_throw_char (β : ListenerId → List Action) (fuel : Nat)
    (s : EventEmitter) (e : EventName) (args : List Value)
    (f : ListenerId) (v : Value) (sd : SetData)
    (hβf : β f = [.throwA v])
    (hisv : isError v = true)
    (herr : mapHas s.listeners "error" = false)
    (hrm : mapHas s.listeners "removeListener" = false)
    (hG : mapGet s.listeners e = some sd)
    (hcur : sd[0]? = some (some f))
    (honce : onceFlag s e f = true)
    (hok : (exec β fuel (.emitR e args) s).1 ≠ .fuelOut) :
    exec β fuel (.emitR e args) s =
      (.thrown v, removeCommit s e f sd,
       [.emitCall e args, .invoke e f args, .emitCall "error" [v],
        .emitCall "removeListener" [.vStr e, .vNat f]]) ∧
    f ∉ elemsOf (removeCommit s e f sd) e := by
  have habsent : f ∉ elemsOf (removeCommit s e f sd) e := by
    show f ∉ sdElems (sdOf (removeCommit s e f sd) e)
    have h1 : sdOf (removeCommit s e f sd) e = sdDelete sd f := by
      simp [sdOf, mapGet_removeCommit_self]
    rw [h1, sdElems_sdDelete]
    simp
  refine ⟨?_, habsent⟩
  cases fuel with
  | zero => exact absurd rfl hok
  | succ n =>
    rw [exec_succ] at hok ⊢
    have hHase : mapHas s.listeners e = true := by simp [mapHas, hG]
    have hsd : sdOf s e = sd := by simp [sdOf, hG]
    rcases hr : exec β n (.emitLoopR e args 0) s with ⟨o, t, w⟩
    have hofl : o ≠ .fuelOut := by
      intro hc
      subst hc
      simp [execBody, hHase, hr] at hok
    have hloopeq : exec β n (.emitLoopR e args 0) s =
        (.thrown v, removeCommit s e f sd,
         [.invoke e f args, .emitCall "error" [v],
          .emitCall "removeListener" [.vStr e, .vNat f]]) := by
      cases n with
      | zero =>
        rw [exec_zero] at hr
        injection hr with h1 h2
        exact absurd h1.symm hofl
      | succ m =>
        have hscript : exec β m (.script (β f)) s = (.thrown v, s, []) := by
          apply script_throw_char β m s f v hβf
          intro hc
          rcases hq : exec β m (.script (β f)) s with ⟨oq, tq, wq⟩
          rw [hq] at hc
          have hoq : oq = Outcome.fuelOut := hc
          subst hoq
          have hL : exec β (m + 1) (.emitLoopR e args 0) s =
              (.fuelOut, tq, .invoke e f args :: wq) := by
            rw [exec_succ]
            simp [execBody, hsd, hcur, hq]
          rw [hr] at hL
          injection hL with h1 h2
          exact hofl h1
        have hokE : (exec β m (.emitR "error" [v]) s).1 ≠ .fuelOut := by
          intro hc
          rcases hq : exec β m (.emitR "error" [v]) s with ⟨oq, tq, wq⟩
          rw [hq] at hc
          have hoq : oq = Outcome.fuelOut := hc
          subst hoq
          have hL : exec β (m + 1) (.emitLoopR e args 0) s =
              (.fuelOut, tq, .invoke e f args :: wq) := by
            rw [exec_succ]
            simp [execBody, hsd, hcur, hscript, hq]
          rw [hr] at hL
          injection hL with h1 h2
          exact hofl h1
        have herr2 : exec β m (.emitR "error" [v]) s =
            (.thrown v, s, [.emitCall "error" [v]]) := by
          have h := emit_error_absent β m s [v] herr hokE
          simpa [hisv] using h
        have hHasf : sdHas sd f = true :=
          sdHas_iff_mem.mpr (mem_sdElems_of_getElem hcur)
        have hokR : (exec β m (.remove e f) s).1 ≠ .fuelOut := by
          intro hc
          rcases hq : exec β m (.remove e f) s with ⟨oq, tq, wq⟩
          rw [hq] at hc
          have hoq : oq = Outcome.fuelOut := hc
          subst hoq
          have hL : exec β (m + 1) (.emitLoopR e args 0) s =
              (.fuelOut, tq, .invoke e f args :: .emitCall "error" [v] :: wq) := by
            rw [exec_succ]
            simp [execBody, hsd, hcur, hscript, herr2, honce, hq]
          rw [hr] at hL
          injection hL with h1 h2
          exact hofl h1
        have hrem := remove_char β m s e f sd hrm hG hHasf hokR
        rw [exec_succ]
        simp [execBody, hsd, hcur, hscript, herr2, honce, hrem]
    simp [execBody, hHase, hloopeq]

/-- The inert-environment characterization of once-removal: with no
listener body re-entering the emitter, a `once: true` listener is invoked
exactly once, its `"removeListener"` dispatch immediately follows within
the same call, it is absent from the listener list afterwards, and later
emits of the event invoke it zero times. -/
theorem emit_once_inert_char (β : ListenerId → List Action) (hβ : ∀ i, β i = [])
    (fuel : Nat) (s : EventEmitter) (e : EventName) (args : List Value)
    (f : ListenerId) (sd : SetData)
    (hrm : mapHas s.listeners "removeListener" = false)
    (hG : mapGet s.listeners e = some sd)
    (hnd : (sdElems sd).Nodup)
    (hmem : f ∈ sdElems sd)
    (honce : onceFlag s e f = true)
    (hok : (exec β fuel (.emitR e args) s).1 ≠ .fuelOut) :
    (∃ t1 t2, (exec β fuel (.emitR e args) s).2.2 =
      .emitCall e args :: (t1 ++ .invoke e f args ::
        .emitCall "removeListener" [.vStr e, .vNat f] :: t2)) ∧
    countInvoke (exec β fuel (.emitR e args) s).2.2 e f = 1 ∧
    f ∉ listenersOf (exec β fuel (.emitR e args) s).2.1 e ∧
    ∀ (args2 : List Value) (fuel2 : Nat),
      (exec β fuel2 (.emitR e args2) (exec β fuel (.emitR e args) s).2.1).1 ≠ .fuelOut →
      countInvoke
        (exec β fuel2 (.emitR e args2) (exec β fuel (.emitR e args) s).2.1).2.2 e f = 0 := by
  obtain ⟨s1, sd1, heq, hkeys, hG1, hsub, hiff, -⟩ :=
    emit_char β hβ fuel s e args sd hrm hG hnd hok
  have hf1 : f ∉ sdElems sd1 := by
    intro hc
    exact ((hiff f).mp hc).2 honce
  refine ⟨?_, ?_, ?_, ?_⟩
  · obtain ⟨t1, t2, hlt⟩ := loopTrace_adjacent s e args f honce sd hmem
    exact ⟨t1, t2, by rw [heq]; show _ = _; rw [hlt]⟩
  · rw [heq]
    show countInvoke (.emitCall e args :: loopTrace s e args sd) e f = 1
    rw [countInvoke_cons_emitCall, countInvoke_loopTrace]
    exact List.count_eq_one_of_mem hnd hmem
  · rw [heq]
    show f ∉ elemsOf s1 e
    have hsd1 : sdOf s1 e = sd1 := by simp [sdOf, hG1]
    rw [elemsOf, hsd1]
    exact hf1
  · intro args2 fuel2 hok2
    rw [heq] at hok2 ⊢
    have hrm1 : mapHas s1.listeners "removeListener" = false := by
      rw [Bool.eq_false_iff]
      intro hc
      rw [mapHas_iff_mem, hkeys, ← mapHas_iff_mem] at hc
      rw [hrm] at hc
      exact Bool.noConfusion hc
    have hnd1 : (sdElems sd1).Nodup := List.Nodup.sublist hsub hnd
    obtain ⟨s2, sd2, heq2, -, -, -, -, -⟩ :=
      emit_char β hβ fuel2 s1 e args2 sd1 hrm1 hG1 hnd1 hok2
    show countInvoke (exec β fuel2 (.emitR e args2) s1).2.2 e f = 0
    rw [heq2]
    show countInvoke (.emitCall e args2 :: loopTrace s1 e args2 sd1) e f = 0
    rw [countInvoke_cons_emitCall, countInvoke_loopTrace]
    exact List.count_eq_zero_of_not_mem hf1

/-- C7: confirmed.  A listener stored with `once: true` is invoked at
most once and is unregistered through the normal remove path (firing a
`"removeListener"` notification) immediately after its invocation — on
the normal-return path and on the throwing path alike.  Part one: with
inert listener bodies, the invocation is followed by the removal
dispatch before any later listener of the same call, the listener is
absent from `listeners(event)` afterwards, and later emits invoke it
zero times.  Part two: when the listener throws an `Error` value and no
`"error"` handler exists, the error propagates out of `emit`, yet the
`finally` clause still removes the listener through the same path,
firing its notification, and it is gone from the final state.  Part
three: on the concrete registry `stateC7t`, whose throwing once-listener
is followed by a handled `"error"` re-emit, the removal notification
fires before the next listener of the same call is invoked, and a second
emit does not invoke the once-listener. -/
theorem claim_C7 :
    (∀ (β : ListenerId → List Action), (∀ i, β i = []) →
      ∀ (fuel : Nat) (s : EventEmitter) (e : EventName) (args : List Value)
        (f : ListenerId) (sd : SetData),
      mapHas s.listeners "removeListener" = false →
      mapGet s.listeners e = some sd →
      (sdElems sd).Nodup →
      f ∈ sdElems sd →
      onceFlag s e f = true →
      (exec β fuel (.emitR e args) s).1 ≠ .fuelOut →
      (∃ t1 t2, (exec β fuel (.emitR e args) s).2.2 =
        .emitCall e args :: (t1 ++ .invoke e f args ::
          .emitCall "removeListener" [.vStr e, .vNat f] :: t2)) ∧
      countInvoke (exec β fuel (.emitR e args) s).2.2 e f = 1 ∧
      f ∉ listenersOf (exec β fuel (.emitR e args) s).2.1 e ∧
      ∀ (args2 : List Value) (fuel2 : Nat),
        (exec β fuel2 (.emitR e args2) (exec β fuel (.emitR e args) s).2.1).1 ≠ .fuelOut →
        countInvoke
          (exec β fuel2 (.emitR e args2)
            (exec β fuel (.emitR e args) s).2.1).2.2 e f = 0) ∧
    (∀ (β : ListenerId → List Action) (fuel : Nat) (s : EventEmitter)
        (e : EventName) (args : List Value) (f : ListenerId) (v : Value)
        (sd : SetData),
      β f = [.throwA v] →
      isError v = true →
      mapHas s.listeners "error" = false →
      mapHas s.listeners "removeListener" = false →
      mapGet s.listeners e = some sd →
      sd[0]? = some (some f) →
      onceFlag s e f = true →
      (exec β fuel (.emitR e args) s).1 ≠ .fuelOut →
      exec β fuel (.emitR e args) s =
        (.thrown v, removeCommit s e f sd,
         [.emitCall e args, .invoke e f args, .emitCall "error" [v],
          .emitCall "removeListener" [.vStr e, .vNat f]]) ∧
      f ∉ elemsOf (removeCommit s e f sd) e) ∧
    (onceFlag stateC7t "hit" 1 = true ∧
     (exec betaC7t 30 (.emitR "hit" []) stateC7t).2.2 =
       [.emitCall "hit" [], .invoke "hit" 1 [],
        .emitCall "error" [.vErr (.userErr 7)],
        .invoke "error" 3 [.vErr (.userErr 7)],
        .emitCall "removeListener" [.vStr "hit", .vNat 1],
        .invoke "hit" 2 []] ∧
     1 ∉ listenersOf (exec betaC7t 30 (.emitR "hit" []) stateC7t).2.1 "hit" ∧
     countInvoke (exec betaC7t 30 (.emitR "hit" [])
       (exec betaC7t 30 (.emitR "hit" []) stateC7t).2.1).2.2 "hit" 1 = 0) :=
  ⟨fun β hβ fuel s e args f sd hrm hG hnd hmem honce hok =>
     emit_once_inert_char β hβ fuel s e args f sd hrm hG hnd hmem honce hok,
   fun β fuel s e args f v sd hβf hisv herr hrm hG hcur honce hok =>
     emit_once_throw_char β fuel s e args f v sd hβf hisv herr hrm hG hcur honce hok,
   by decide⟩

/-- C7 witness: on the inert side, the once-listener 1 of `"hit"` is
invoked once with its removal notification in place and is gone
afterwards; on the throwing side, the unhandled throw of listener 1
propagates while the `finally` removal still commits and notifies. -/
theorem claim_C7_witness :
    onceFlag stateC7 "hit" 1 = true ∧
    ((∃ t1 t2, (exec betaEmpty 30 (.emitR "hit" []) stateC7).2.2 =
       .emitCall "hit" [] :: (t1 ++ .invoke "hit" 1 [] ::
         .emitCall "removeListener" [.vStr "hit", .vNat 1] :: t2)) ∧
     countInvoke (exec betaEmpty 30 (.emitR "hit" []) stateC7).2.2 "hit" 1 = 1 ∧
     1 ∉ listenersOf (exec betaEmpty 30 (.emitR "hit" []) stateC7).2.1 "hit" ∧
     ∀ (args2 : List Value) (fuel2 : Nat),
       (exec betaEmpty fuel2 (.emitR "hit" args2)
         (exec betaEmpty 30 (.emitR "hit" []) stateC7).2.1).1 ≠ .fuelOut →
       countInvoke
         (exec betaEmpty fuel2 (.emitR "hit" args2)
           (exec betaEmpty 30 (.emitR "hit" []) stateC7).2.1).2.2 "hit" 1 = 0) ∧
    betaC7t 1 = [.throwA (.vErr (.userErr 7))] ∧
    (exec betaC7t 30 (.emitR "hit" []) stateB7 =
       (.thrown (.vErr (.userErr 7)), removeCommit stateB7 "hit" 1 [some 1, some 2],
        [.emitCall "hit" [], .invoke "hit" 1 [],
         .emitCall "error" [.vErr (.userErr 7)],
         .emitCall "removeListener" [.vStr "hit", .vNat 1]]) ∧
     1 ∉ elemsOf (removeCommit stateB7 "hit" 1 [some 1, some 2]) "hit") :=
  ⟨by decide,
   claim_C7.1 betaEmpty (fun _ => rfl) 30 stateC7 "hit" [] 1 [some 1, some 2]
     (by decide) (by decide) (by decide) (by decide) (by decide) (by decide),
   by decide,
   claim_C7.2.1 betaC7t 30 stateB7 "hit" [] 1 (.vErr (.userErr 7)) [some 1, some 2]
     (by decide) (by decide) (by decide) (by decide) (by decide) (by decide)
     (by decide) (by decide)⟩

end EventEmitterSpec
